import Mathlib

/-!
Verification of the cfmt tokenizer (src/lexer/lexer.rs, src/lexer/token.rs,
src/lexer/direction.rs), shallowly embedded in Lean.

The Rust lexer owns a character buffer (`Vec<char>`, embedded as `List Char`)
and a cursor `index : usize` (embedded as `Nat`).  Every `&mut self` method is
embedded as a state-passing function returning its `Result` together with the
updated state.  Each Rust `while` loop walks the cursor forward through the
buffer; it is translated to structural recursion on an explicit bound (the
number of characters remaining, supplied by the wrapper as
`source.length - index`), which keeps every definition kernel-computable.
The fuel lemmas (eat_until_go_fuel, eat_number_go_fuel) and the loop
characterization lemmas, all stated for an arbitrary sufficient bound, show
the bound never influences the result.

Rust `String` values (accumulators and token payloads) are embedded as their
character sequences (`List Char`).
-/

namespace Cfmt

/-- Embedding of Rust `char::is_whitespace`: the Unicode `White_Space`
property, a fixed finite set of code points, transcribed in full. -/
def charIsWhitespace (c : Char) : Bool :=
  decide (c.toNat = 0x09) || decide (c.toNat = 0x0A) || decide (c.toNat = 0x0B) ||
  decide (c.toNat = 0x0C) || decide (c.toNat = 0x0D) || decide (c.toNat = 0x20) ||
  decide (c.toNat = 0x85) || decide (c.toNat = 0xA0) || decide (c.toNat = 0x1680) ||
  (decide (0x2000 ≤ c.toNat) && decide (c.toNat ≤ 0x200A)) ||
  decide (c.toNat = 0x2028) || decide (c.toNat = 0x2029) || decide (c.toNat = 0x202F) ||
  decide (c.toNat = 0x205F) || decide (c.toNat = 0x3000)

/-- ASCII fragment of Rust `char::is_numeric` (decimal digits).  Rust's
predicate additionally accepts the non-ASCII Unicode numeric characters
(categories Nd, Nl, No), a table too large to transcribe; the number-scanning
loop is therefore also defined with the character-class test as a parameter
(`Lexer.eat_number_literal_go_p`) and its properties are proved for every
test, which covers Rust's full predicate.  This fragment instantiates those
definitions wherever concrete inputs are evaluated; every concrete input in
this development is ASCII, where the two tests agree. -/
def charIsNumeric (c : Char) : Bool :=
  c.isDigit

/-- ASCII fragment of Rust `char::is_alphanumeric` (letters and decimal
digits).  Rust's predicate additionally accepts the non-ASCII Unicode
alphabetic and numeric characters, a table too large to transcribe; the
identifier-scanning loop is therefore also defined with the character-class
test as a parameter (`Lexer.eat_alphanumeric_go_p`) and its properties are
proved for every test, which covers Rust's full predicate.  This fragment
instantiates those definitions wherever concrete inputs are evaluated; every
concrete input in this development is ASCII, where the two tests agree. -/
def charIsAlphanumeric (c : Char) : Bool :=
  c.isAlpha || c.isDigit

/-- Denotes whether a paired symbol, such as a bracket, is left or right
oriented (src/lexer/direction.rs). -/
inductive Direction where
  | Left
  | Right
deriving DecidableEq

/-- Exhaustive list of all keywords (src/lexer/token.rs). -/
inductive TokenKeyword where
  | If
  | Else
  | Return
  | Unsigned
  | For
  | Do
  | While
  | Goto
  | Switch
  | Case
  | Const
  | Volatile
  | External
  | Static
  | Auto
  | Struct
  | Union
deriving DecidableEq

/-- Attempt to match a string to a keyword: embedding of
`TokenKeyword::from` in src/lexer/token.rs (`from` is a reserved word in
Lean, hence the name).  The Rust function matches the full string against
each table entry in this exact order. -/
def TokenKeyword.fromStr (keyword : List Char) : Option TokenKeyword :=
  if keyword = "if".data then some TokenKeyword.If
  else if keyword = "else".data then some TokenKeyword.Else
  else if keyword = "return".data then some TokenKeyword.Return
  else if keyword = "unsigned".data then some TokenKeyword.Unsigned
  else if keyword = "for".data then some TokenKeyword.For
  else if keyword = "while".data then some TokenKeyword.While
  else if keyword = "do".data then some TokenKeyword.Do
  else if keyword = "goto".data then some TokenKeyword.Goto
  else if keyword = "switch".data then some TokenKeyword.Switch
  else if keyword = "case".data then some TokenKeyword.Case
  else if keyword = "const".data then some TokenKeyword.Const
  else if keyword = "volatile".data then some TokenKeyword.Volatile
  else if keyword = "external".data then some TokenKeyword.External
  else if keyword = "static".data then some TokenKeyword.Static
  else if keyword = "auto".data then some TokenKeyword.Auto
  else if keyword = "struct".data then some TokenKeyword.Struct
  else if keyword = "union".data then some TokenKeyword.Union
  else none

/-- All token types used by cfmt (src/lexer/token.rs).  Rust `String`
payloads are embedded as `List Char`. -/
inductive Token where
  | Plus
  | PlusPlus
  | Minus
  | MinusMinus
  | Star
  | Slash
  | SlashSlash (text : List Char)
  | SlashStar (text : List Char)
  | Bang
  | BangEqual
  | Tilde
  | Caret
  | Equal
  | EqualEqual
  | Greater
  | GreaterEqual
  | Less
  | LessEqual
  | Brace (d : Direction)
  | Parenthesis (d : Direction)
  | Bracket (d : Direction)
  | Semicolon
  | Ampersand
  | Comma
  | Dot
  | Arrow
  | Identifier (text : List Char)
  | Number (text : List Char)
  | Str (text : List Char)
  | Keyword (k : TokenKeyword)
deriving DecidableEq

/-- Error taxonomy of the lexer (src/lexer/lexer.rs, `LexerError`). -/
inductive LexerError where
  | EndOfFileReached
  | CharacterMismatch
  | InvalidNumber
  | UnknownCharacter
deriving DecidableEq

instance {ε α : Type} [DecidableEq ε] [DecidableEq α] : DecidableEq (Except ε α) := fun a b =>
  match a, b with
  | .error e, .error e' =>
    if h : e = e' then .isTrue (by rw [h]) else .isFalse (by intro hc; cases hc; exact h rfl)
  | .error _, .ok _ => .isFalse (by intro hc; cases hc)
  | .ok _, .error _ => .isFalse (by intro hc; cases hc)
  | .ok a, .ok a' =>
    if h : a = a' then .isTrue (by rw [h]) else .isFalse (by intro hc; cases hc; exact h rfl)

/-- Concrete inputs used by the claims below. -/
def inputDollar : String := "$"

def inputBlockComment : String := "/*a*/"

def inputOneTwoThree : String := "1.2.3"

def inputUnterminated : String := "\"abc"

def inputForForeign : String := "for foreign"

def inputSpaces : String := " \t\n"

/-- A stateful lexer which can be executed once, returning a stream of tokens
in the process (src/lexer/lexer.rs).  `source` is the source code that will
be parsed; `index` is the position of the next character that needs to be
parsed. -/
structure Lexer where
  source : List Char
  index : Nat
deriving DecidableEq

namespace Lexer

/-- Create a new lexer for a given source file (`Lexer::new`): the string is
decomposed into its characters and the cursor starts at zero. -/
def new (source : String) : Lexer :=
  ⟨source.data, 0⟩

/-- Check the next character in the input stream, without advancing the lexer
(`Lexer::peek`). -/
def peek (s : Lexer) : Except LexerError Char :=
  match s.source[s.index]? with
  | some c => .ok c
  | none => .error .EndOfFileReached

/-- Check if the source file has been completely finished
(`Lexer::finished`). -/
def finished (s : Lexer) : Bool :=
  s.source.length == s.index

/-- Attempt to remove a specific character from the input stream
(`Lexer::eat`): on success the cursor advances by one, otherwise the state is
unchanged and the error is `CharacterMismatch` (or the propagated
end-of-input error from `peek`). -/
def eat (c : Char) (s : Lexer) : Except LexerError Unit × Lexer :=
  match s.peek with
  | .error e => (.error e, s)
  | .ok d =>
    if d == c then (.ok (), ⟨s.source, s.index + 1⟩)
    else (.error .CharacterMismatch, s)

/-- Loop body of `Lexer::trim_leading_whitespace`: the Rust `while let` loop,
as structural recursion on the number of characters remaining. -/
def trim_leading_whitespace_go (s : Lexer) : Nat → Except LexerError Unit × Lexer
  | 0 => (.ok (), s)
  | fuel + 1 =>
    match s.peek with
    | .error _ => (.ok (), s)
    | .ok c =>
      if charIsWhitespace c then
        match eat c s with
        | (.error e, s') => (.error e, s')
        | (.ok _, s') => trim_leading_whitespace_go s' fuel
      else (.ok (), s)

/-- Remove all whitespace leading up to the next readable character
(`Lexer::trim_leading_whitespace`). -/
def trim_leading_whitespace (s : Lexer) : Except LexerError Unit × Lexer :=
  trim_leading_whitespace_go s (s.source.length - s.index)

/-- Loop body of `Lexer::eat_until`: the Rust `while let` loop with its two
locals (`result`, the accumulator, and `espaced`, the escape flag — the
variable name is the source's own spelling), as structural recursion on the
number of characters remaining. -/
def eat_until_go (goal : Char) (espaced : Bool) (result : List Char) (s : Lexer) :
    Nat → Except LexerError (List Char) × Lexer
  | 0 => (.ok result, s)
  | fuel + 1 =>
    match s.peek with
    | .error _ => (.ok result, s)
    | .ok c =>
      match eat c s with
      | (.error e, s') => (.error e, s')
      | (.ok _, s') =>
        if !espaced && c == goal then (.ok result, s')
        else eat_until_go goal (c == '\\') (result ++ [c]) s' fuel

/-- Attempt to eat all characters until a specific character is found, also
eating that character; a character preceded by the escape flag is skipped
(`Lexer::eat_until`).  `result` starts empty and `espaced` starts false. -/
def eat_until (goal : Char) (s : Lexer) : Except LexerError (List Char) × Lexer :=
  eat_until_go goal false [] s (s.source.length - s.index)

/-- Eat all remaining characters on the current line (`Lexer::eat_line`). -/
def eat_line (s : Lexer) : Except LexerError (List Char) × Lexer :=
  eat_until '\n' s

/-- Attempt to eat a string literal (`Lexer::eat_string_literal`): consume
the opening quote, then everything up to and including the closing quote. -/
def eat_string_literal (s : Lexer) : Except LexerError (List Char) × Lexer :=
  match eat '"' s with
  | (.error e, s') => (.error e, s')
  | (.ok _, s') => eat_until '"' s'

/-- Loop body of `Lexer::eat_number_literal` with its locals (`result` and
`period_passed`), as structural recursion on the number of characters
remaining. -/
def eat_number_literal_go (period_passed : Bool) (result : List Char) (s : Lexer) :
    Nat → Except LexerError (List Char) × Lexer
  | 0 => (.ok result, s)
  | fuel + 1 =>
    match s.peek with
    | .error _ => (.ok result, s)
    | .ok c =>
      if c = '.' then
        if period_passed then (.error .InvalidNumber, s)
        else
          match eat c s with
          | (.error e, s') => (.error e, s')
          | (.ok _, s') => eat_number_literal_go true (result ++ [c]) s' fuel
      else if charIsNumeric c then
        match eat c s with
        | (.error e, s') => (.error e, s')
        | (.ok _, s') => eat_number_literal_go period_passed (result ++ [c]) s' fuel
      else (.ok result, s)

/-- Attempt to eat a number literal (`Lexer::eat_number_literal`). -/
def eat_number_literal (s : Lexer) : Except LexerError (List Char) × Lexer :=
  eat_number_literal_go false [] s (s.source.length - s.index)

/-- Loop body of `Lexer::eat_alphanumeric`, as structural recursion on the
number of characters remaining. -/
def eat_alphanumeric_go (result : List Char) (s : Lexer) :
    Nat → Except LexerError (List Char) × Lexer
  | 0 => (.ok result, s)
  | fuel + 1 =>
    match s.peek with
    | .error _ => (.ok result, s)
    | .ok c =>
      if c ≠ '_' ∧ ¬charIsAlphanumeric c then (.ok result, s)
      else
        match eat c s with
        | (.error e, s') => (.error e, s')
        | (.ok _, s') => eat_alphanumeric_go (result ++ [c]) s' fuel

/-- Eat all characters which might be part of an identifier or a keyword
(`Lexer::eat_alphanumeric`). -/
def eat_alphanumeric (s : Lexer) : Except LexerError (List Char) × Lexer :=
  eat_alphanumeric_go [] s (s.source.length - s.index)

/-- Loop body of `Lexer::eat_number_literal` with the character-class test
`char::is_numeric` abstracted as the parameter `is_num` (otherwise the same
translation as `eat_number_literal_go`, which is the instance at
`charIsNumeric`; the program is the instance at Rust's full Unicode
predicate).  Properties proved for every `is_num` hold in particular of the
program. -/
def eat_number_literal_go_p (is_num : Char → Bool) (period_passed : Bool)
    (result : List Char) (s : Lexer) : Nat → Except LexerError (List Char) × Lexer
  | 0 => (.ok result, s)
  | fuel + 1 =>
    match s.peek with
    | .error _ => (.ok result, s)
    | .ok c =>
      if c = '.' then
        if period_passed then (.error .InvalidNumber, s)
        else
          match eat c s with
          | (.error e, s') => (.error e, s')
          | (.ok _, s') => eat_number_literal_go_p is_num true (result ++ [c]) s' fuel
      else if is_num c then
        match eat c s with
        | (.error e, s') => (.error e, s')
        | (.ok _, s') => eat_number_literal_go_p is_num period_passed (result ++ [c]) s' fuel
      else (.ok result, s)

/-- Attempt to eat a number literal (`Lexer::eat_number_literal`), with the
character-class test abstracted as in `eat_number_literal_go_p`. -/
def eat_number_literal_p (is_num : Char → Bool) (s : Lexer) :
    Except LexerError (List Char) × Lexer :=
  eat_number_literal_go_p is_num false [] s (s.source.length - s.index)

/-- Loop body of `Lexer::eat_alphanumeric` with the character-class test
`char::is_alphanumeric` abstracted as the parameter `is_alnum` (otherwise the
same translation as `eat_alphanumeric_go`, which is the instance at
`charIsAlphanumeric`; the program is the instance at Rust's full Unicode
predicate). -/
def eat_alphanumeric_go_p (is_alnum : Char → Bool) (result : List Char) (s : Lexer) :
    Nat → Except LexerError (List Char) × Lexer
  | 0 => (.ok result, s)
  | fuel + 1 =>
    match s.peek with
    | .error _ => (.ok result, s)
    | .ok c =>
      if c ≠ '_' ∧ ¬is_alnum c then (.ok result, s)
      else
        match eat c s with
        | (.error e, s') => (.error e, s')
        | (.ok _, s') => eat_alphanumeric_go_p is_alnum (result ++ [c]) s' fuel

/-- Eat all characters which might be part of an identifier or a keyword
(`Lexer::eat_alphanumeric`), with the character-class test abstracted as in
`eat_alphanumeric_go_p`. -/
def eat_alphanumeric_p (is_alnum : Char → Bool) (s : Lexer) :
    Except LexerError (List Char) × Lexer :=
  eat_alphanumeric_go_p is_alnum [] s (s.source.length - s.index)

/-- Keyword-versus-identifier classification, the body of `Lexer::next_token`
at a letter or underscore (src/src/lexer/lexer.rs lines 281-288): capture the
whole alphanumeric run first, then match the entire run against the keyword
table.  The character-class test is abstracted as in
`eat_alphanumeric_go_p`. -/
def classify_word_p (is_alnum : Char → Bool) (s : Lexer) :
    Except LexerError Token × Lexer :=
  match eat_alphanumeric_p is_alnum s with
  | (.error e, s₂) => (.error e, s₂)
  | (.ok result, s₂) =>
    match TokenKeyword.fromStr result with
    | some keyword => (.ok (.Keyword keyword), s₂)
    | none => (.ok (.Identifier result), s₂)

/-- Find the next token in the input stream (`Lexer::next_token`): trim
leading whitespace, peek one character and dispatch on it exactly as the
Rust `match` does.  A failed probing `eat` (the Rust
`if let Ok(()) = self.eat(..)` pattern) leaves the state unchanged and falls
through to the next alternative. -/
def next_token (s : Lexer) : Except LexerError Token × Lexer :=
  match trim_leading_whitespace s with
  | (.error e, s₁) => (.error e, s₁)
  | (.ok _, s₁) =>
    match s₁.peek with
    | .error e => (.error e, s₁)
    | .ok c =>
      if c = '+' then
        match eat '+' s₁ with
        | (.error e, s₂) => (.error e, s₂)
        | (.ok _, s₂) =>
          match eat '+' s₂ with
          | (.ok _, s₃) => (.ok .PlusPlus, s₃)
          | (.error _, s₃) => (.ok .Plus, s₃)
      else if c = '-' then
        match eat '-' s₁ with
        | (.error e, s₂) => (.error e, s₂)
        | (.ok _, s₂) =>
          match eat '-' s₂ with
          | (.ok _, s₃) => (.ok .MinusMinus, s₃)
          | (.error _, s₃) =>
            match eat '>' s₃ with
            | (.ok _, s₄) => (.ok .Arrow, s₄)
            | (.error _, s₄) => (.ok .Minus, s₄)
      else if c = '*' then
        match eat '*' s₁ with
        | (.error e, s₂) => (.error e, s₂)
        | (.ok _, s₂) => (.ok .Star, s₂)
      else if c = '/' then
        match eat '/' s₁ with
        | (.error e, s₂) => (.error e, s₂)
        | (.ok _, s₂) =>
          match eat '/' s₂ with
          | (.ok _, s₃) =>
            match eat_line s₃ with
            | (.error e, s₄) => (.error e, s₄)
            | (.ok comment, s₄) => (.ok (.SlashSlash comment), s₄)
          | (.error _, s₃) =>
            match eat '*' s₃ with
            | (.ok _, s₄) => (.ok (.SlashStar []), s₄)
            | (.error _, s₄) => (.ok .Slash, s₄)
      else if c = '!' then
        match eat '!' s₁ with
        | (.error e, s₂) => (.error e, s₂)
        | (.ok _, s₂) =>
          match eat '=' s₂ with
          | (.ok _, s₃) => (.ok .BangEqual, s₃)
          | (.error _, s₃) => (.ok .Bang, s₃)
      else if c = '~' then
        match eat '~' s₁ with
        | (.error e, s₂) => (.error e, s₂)
        | (.ok _, s₂) => (.ok .Tilde, s₂)
      else if c = '^' then
        match eat '^' s₁ with
        | (.error e, s₂) => (.error e, s₂)
        | (.ok _, s₂) => (.ok .Caret, s₂)
      else if c = '=' then
        match eat '=' s₁ with
        | (.error e, s₂) => (.error e, s₂)
        | (.ok _, s₂) =>
          match eat '=' s₂ with
          | (.ok _, s₃) => (.ok .EqualEqual, s₃)
          | (.error _, s₃) => (.ok .Equal, s₃)
      else if c = '>' then
        match eat '>' s₁ with
        | (.error e, s₂) => (.error e, s₂)
        | (.ok _, s₂) =>
          match eat '=' s₂ with
          | (.ok _, s₃) => (.ok .GreaterEqual, s₃)
          | (.error _, s₃) => (.ok .Greater, s₃)
      else if c = '<' then
        match eat '<' s₁ with
        | (.error e, s₂) => (.error e, s₂)
        | (.ok _, s₂) =>
          match eat '=' s₂ with
          | (.ok _, s₃) => (.ok .LessEqual, s₃)
          | (.error _, s₃) => (.ok .Less, s₃)
      else if c = '(' then
        match eat '(' s₁ with
        | (.error e, s₂) => (.error e, s₂)
        | (.ok _, s₂) => (.ok (.Parenthesis .Left), s₂)
      else if c = ')' then
        match eat ')' s₁ with
        | (.error e, s₂) => (.error e, s₂)
        | (.ok _, s₂) => (.ok (.Parenthesis .Right), s₂)
      else if c = '{' then
        match eat '{' s₁ with
        | (.error e, s₂) => (.error e, s₂)
        | (.ok _, s₂) => (.ok (.Brace .Left), s₂)
      else if c = '}' then
        match eat '}' s₁ with
        | (.error e, s₂) => (.error e, s₂)
        | (.ok _, s₂) => (.ok (.Brace .Right), s₂)
      else if c = '[' then
        match eat '[' s₁ with
        | (.error e, s₂) => (.error e, s₂)
        | (.ok _, s₂) => (.ok (.Bracket .Left), s₂)
      else if c = ']' then
        match eat ']' s₁ with
        | (.error e, s₂) => (.error e, s₂)
        | (.ok _, s₂) => (.ok (.Bracket .Right), s₂)
      else if c = ';' then
        match eat ';' s₁ with
        | (.error e, s₂) => (.error e, s₂)
        | (.ok _, s₂) => (.ok .Semicolon, s₂)
      else if c = '&' then
        match eat '&' s₁ with
        | (.error e, s₂) => (.error e, s₂)
        | (.ok _, s₂) => (.ok .Ampersand, s₂)
      else if c = ',' then
        match eat ',' s₁ with
        | (.error e, s₂) => (.error e, s₂)
        | (.ok _, s₂) => (.ok .Comma, s₂)
      else if c = '.' then
        match eat '.' s₁ with
        | (.error e, s₂) => (.error e, s₂)
        | (.ok _, s₂) => (.ok .Dot, s₂)
      else if c = '"' then
        match eat_string_literal s₁ with
        | (.error e, s₂) => (.error e, s₂)
        | (.ok text, s₂) => (.ok (.Str text), s₂)
      else if '0' ≤ c ∧ c ≤ '9' then
        match eat_number_literal s₁ with
        | (.error e, s₂) => (.error e, s₂)
        | (.ok text, s₂) => (.ok (.Number text), s₂)
      else if ('a' ≤ c ∧ c ≤ 'z') ∨ ('A' ≤ c ∧ c ≤ 'Z') ∨ c = '_' then
        match eat_alphanumeric s₁ with
        | (.error e, s₂) => (.error e, s₂)
        | (.ok result, s₂) =>
          match TokenKeyword.fromStr result with
          | some keyword => (.ok (.Keyword keyword), s₂)
          | none => (.ok (.Identifier result), s₂)
      else (.error .UnknownCharacter, s₁)

/-- One pull on the token stream: embedding of `impl Iterator for Lexer`
(`fn next`).  A clean end-of-input boundary (end-of-file error with the
cursor at the end) terminates the sequence with `none`; any other outcome is
yielded as an item. -/
def next (s : Lexer) : Option (Except LexerError Token) × Lexer :=
  match next_token s with
  | (.ok token, s') => (some (.ok token), s')
  | (.error .EndOfFileReached, s') =>
    if s'.finished then (none, s') else (some (.error .EndOfFileReached), s')
  | (.error e, s') => (some (.error e), s')

/-- State of the lexer after `n` pulls on the iterator. -/
def stateAfter (s : Lexer) : Nat → Lexer
  | 0 => s
  | n + 1 => (Lexer.next (stateAfter s n)).2

/-- Item produced by pull number `n` (zero-based) on the iterator. -/
def itemAt (s : Lexer) (n : Nat) : Option (Except LexerError Token) :=
  (Lexer.next (stateAfter s n)).1

/-- Facts established about one `next_token` computation from state `s`
yielding result `r` and final state `s'`: the source buffer is untouched,
the cursor moves forward and stays within bounds, `CharacterMismatch` is
never produced, a token or an `InvalidNumber` error strictly advances the
cursor, an end-of-file error occurs only with the cursor at the very end,
and an unknown-character error is a fixpoint (repeating the computation
from `s'` changes nothing). -/
def NextTokenFacts (s : Lexer) (r : Except LexerError Token) (s' : Lexer) : Prop :=
  s'.source = s.source ∧ s.index ≤ s'.index ∧ s'.index ≤ s.source.length ∧
  r ≠ .error .CharacterMismatch ∧
  (∀ t, r = .ok t → s.index < s'.index) ∧
  (r = .error .EndOfFileReached → s'.index = s.source.length) ∧
  (r = .error .InvalidNumber → s.index < s'.index) ∧
  (r = .error .UnknownCharacter → next_token s' = (.error .UnknownCharacter, s'))



theorem peek_ok_lt {s : Lexer} {c : Char} (h : s.peek = .ok c) :
    s.index < s.source.length := by
  unfold peek at h
  cases hg : s.source[s.index]? with
  | none => rw [hg] at h; cases h
  | some d => exact (List.getElem?_eq_some.mp hg).1

theorem peek_ok_getElem {s : Lexer} {c : Char} (h : s.peek = .ok c) :
    s.source[s.index]? = some c := by
  unfold peek at h
  cases hg : s.source[s.index]? with
  | none => rw [hg] at h; cases h
  | some d => rw [hg] at h; cases h; rfl

theorem peek_of_getElem {s : Lexer} {c : Char} (h : s.source[s.index]? = some c) :
    s.peek = .ok c := by
  unfold peek
  rw [h]

theorem peek_none {s : Lexer} (h : s.source.length ≤ s.index) :
    s.peek = .error .EndOfFileReached := by
  unfold peek
  have hg : s.source[s.index]? = none := by
    rw [List.getElem?_eq_none]
    exact h
  rw [hg]

theorem peek_error_le {s : Lexer} {e : LexerError} (h : s.peek = .error e) :
    s.source.length ≤ s.index ∧ e = .EndOfFileReached := by
  unfold peek at h
  cases hg : s.source[s.index]? with
  | none =>
    rw [hg] at h
    cases h
    exact ⟨List.getElem?_eq_none_iff.mp hg, rfl⟩
  | some d => rw [hg] at h; cases h

theorem eat_after_peek {s : Lexer} {c : Char} (h : s.peek = .ok c) :
    eat c s = (.ok (), ⟨s.source, s.index + 1⟩) := by
  unfold eat
  rw [h]
  simp

theorem eat_error_state {c : Char} {s : Lexer} {e : LexerError} {s' : Lexer}
    (h : eat c s = (.error e, s')) : s' = s := by
  unfold eat at h
  cases hp : s.peek with
  | error e' => rw [hp] at h; cases h; rfl
  | ok d =>
    rw [hp] at h
    dsimp only at h
    by_cases hd : (d == c) = true
    · rw [if_pos hd] at h; cases h
    · rw [if_neg hd] at h; cases h; rfl

theorem eat_state_shape (c : Char) (s : Lexer) :
    (eat c s).2.source = s.source ∧ s.index ≤ (eat c s).2.index ∧
    (eat c s).2.index ≤ s.index + 1 ∧
    (s.index ≤ s.source.length → (eat c s).2.index ≤ s.source.length) := by
  unfold eat
  cases hp : s.peek with
  | error e => simp
  | ok d =>
    have hlt := peek_ok_lt hp
    dsimp only
    by_cases hd : (d == c) = true
    · rw [if_pos hd]
      dsimp only
      refine ⟨rfl, by omega, by omega, fun _ => by omega⟩
    · rw [if_neg hd]
      dsimp only
      exact ⟨rfl, le_refl _, by omega, fun h => h⟩

theorem drop_index_cons {s : Lexer} {c : Char} (h : s.source[s.index]? = some c) :
    s.source.drop s.index = c :: s.source.drop (s.index + 1) := by
  obtain ⟨hlt, hc⟩ := List.getElem?_eq_some.mp h
  rw [List.drop_eq_getElem_cons hlt, hc]

theorem drop_index_nil {s : Lexer} (h : s.source.length ≤ s.index) :
    s.source.drop s.index = [] := by
  exact List.drop_eq_nil_of_le h

theorem takeWhile_getElem_false {p : Char → Bool} {l : List Char} {d : Char}
    (h : l[(l.takeWhile p).length]? = some d) : p d = false := by
  induction l with
  | nil => cases h
  | cons c rest ih =>
    by_cases hc : p c = true
    · rw [List.takeWhile_cons_of_pos hc] at h
      simp only [List.length_cons, List.getElem?_cons_succ] at h
      exact ih h
    · rw [List.takeWhile_cons_of_neg (by simp [hc])] at h
      simp only [List.length_nil, List.getElem?_cons_zero] at h
      cases h
      simpa using hc

theorem trim_go_spec (fuel : Nat) (s : Lexer) (h : s.source.length - s.index ≤ fuel) :
    trim_leading_whitespace_go s fuel =
      (.ok (), ⟨s.source,
        s.index + ((s.source.drop s.index).takeWhile charIsWhitespace).length⟩) := by
  induction fuel generalizing s with
  | zero =>
    have hd : s.source.drop s.index = [] := drop_index_nil (by omega)
    simp [trim_leading_whitespace_go, hd]
  | succ n ih =>
    cases hp : s.peek with
    | error e =>
      have hle := (peek_error_le hp).1
      have hd : s.source.drop s.index = [] := drop_index_nil hle
      simp [trim_leading_whitespace_go, hp, hd]
    | ok c =>
      have hlt := peek_ok_lt hp
      have hd : s.source.drop s.index = c :: s.source.drop (s.index + 1) :=
        drop_index_cons (peek_ok_getElem hp)
      simp only [trim_leading_whitespace_go, hp]
      by_cases hw : charIsWhitespace c = true
      · rw [if_pos hw, eat_after_peek hp]
        dsimp only
        have := ih ⟨s.source, s.index + 1⟩ (by simp; omega)
        simp only at this
        rw [this, hd, List.takeWhile_cons_of_pos hw]
        simp only [List.length_cons]
        congr 2
        omega
      · rw [if_neg hw, hd, List.takeWhile_cons_of_neg (by simp [hw])]
        simp

theorem trim_spec (s : Lexer) :
    trim_leading_whitespace s =
      (.ok (), ⟨s.source,
        s.index + ((s.source.drop s.index).takeWhile charIsWhitespace).length⟩) :=
  trim_go_spec _ s (le_refl _)

theorem eat_until_go_spec (goal : Char) (fuel : Nat) :
    ∀ (espaced : Bool) (result : List Char) (s : Lexer),
      s.source.length - s.index ≤ fuel →
      ∃ l k,
        eat_until_go goal espaced result s fuel =
          (.ok (result ++ l), ⟨s.source, s.index + k⟩) ∧
        ((k = (s.source.drop s.index).length ∧ l = s.source.drop s.index) ∨
         (k = l.length + 1 ∧ k ≤ (s.source.drop s.index).length ∧
          l = (s.source.drop s.index).take l.length ∧
          (s.source.drop s.index)[l.length]? = some goal ∧
          (l.length = 0 → espaced = false) ∧
          (∀ j, l.length = j + 1 → ¬(s.source.drop s.index)[j]? = some '\\') ∧
          (∀ i, i < l.length → (s.source.drop s.index)[i]? = some goal →
            (i = 0 → espaced = true) ∧
            (∀ j, i = j + 1 → (s.source.drop s.index)[j]? = some '\\')))) := by
  induction fuel with
  | zero =>
    intro espaced result s h
    have hd : s.source.drop s.index = [] := drop_index_nil (by omega)
    refine ⟨[], 0, ?_, Or.inl (by simp [hd])⟩
    simp [eat_until_go]
  | succ n ih =>
    intro espaced result s h
    cases hp : s.peek with
    | error e =>
      have hle := (peek_error_le hp).1
      have hd : s.source.drop s.index = [] := drop_index_nil hle
      refine ⟨[], 0, ?_, Or.inl (by simp [hd])⟩
      simp [eat_until_go, hp]
    | ok c =>
      have hlt := peek_ok_lt hp
      have hd : s.source.drop s.index = c :: s.source.drop (s.index + 1) :=
        drop_index_cons (peek_ok_getElem hp)
      by_cases hb : (!espaced && c == goal) = true
      · refine ⟨[], 1, ?_, Or.inr ?_⟩
        · simp only [eat_until_go, hp, eat_after_peek hp]
          rw [if_pos hb]
          simp
        · obtain ⟨hesp, hcg⟩ := Bool.and_eq_true_iff.mp hb
          have hcg' : c = goal := by simpa using hcg
          have hesp' : espaced = false := by simpa using hesp
          refine ⟨rfl, by rw [hd]; simp, by simp, ?_, fun _ => hesp', ?_, ?_⟩
          · rw [hd]
            simpa using hcg'
          · intro j hj
            cases hj
          · intro i hi
            cases hi
      · obtain ⟨l', k', heq, hdisj⟩ :=
          ih (c == '\\') (result ++ [c]) ⟨s.source, s.index + 1⟩ (by simp; omega)
        simp only at heq hdisj
        refine ⟨c :: l', k' + 1, ?_, ?_⟩
        · simp only [eat_until_go, hp, eat_after_peek hp]
          rw [if_neg hb, heq]
          simp only [List.append_assoc, List.singleton_append]
          congr 2
          omega
        · rcases hdisj with ⟨hk, hl⟩ | ⟨hk, hklen, hltake, hgoal, hesp0, hpred, hfirst⟩
          · left
            rw [hd, hl]
            exact ⟨by simp [hk], rfl⟩
          · right
            have hcgoal : c = goal → espaced = true := by
              intro hcg
              by_contra hne
              have hf : espaced = false := by
                cases espaced
                · rfl
                · exact absurd rfl hne
              apply hb
              simp [hf, hcg]
            rw [hd]
            refine ⟨?_, ?_, ?_, ?_, ?_, ?_, ?_⟩
            · simp only [List.length_cons]
              omega
            · simp only [List.length_cons]
              omega
            · simp only [List.length_cons, List.take_succ_cons]
              rw [← hltake]
            · simp only [List.length_cons, List.getElem?_cons_succ]
              exact hgoal
            · intro habs
              simp at habs
            · intro j hj
              simp only [List.length_cons] at hj
              cases j with
              | zero =>
                simp only [List.getElem?_cons_zero]
                intro hcc
                have hc0 : c = '\\' := by injection hcc
                have hl0 : l'.length = 0 := by omega
                have := hesp0 hl0
                rw [hc0] at this
                simp at this
              | succ j' =>
                simp only [List.getElem?_cons_succ]
                exact hpred j' (by omega)
            · intro i hi hg
              cases i with
              | zero =>
                simp only [List.getElem?_cons_zero] at hg
                have hcg : c = goal := by injection hg
                refine ⟨fun _ => hcgoal hcg, ?_⟩
                intro j hj
                exact absurd hj (by omega)
              | succ i' =>
                simp only [List.length_cons] at hi
                simp only [List.getElem?_cons_succ] at hg
                obtain ⟨h0, hprev⟩ := hfirst i' (by omega) hg
                refine ⟨?_, ?_⟩
                · intro habs
                  exact absurd habs (by omega)
                intro j hj
                cases j with
                | zero =>
                  simp only [List.getElem?_cons_zero]
                  have hi0 : i' = 0 := by omega
                  have := h0 hi0
                  have hc0 : c = '\\' := by simpa using this
                  rw [hc0]
                | succ j' =>
                  simp only [List.getElem?_cons_succ]
                  exact hprev j' (by omega)

theorem eat_until_spec (goal : Char) (s : Lexer) :
    ∃ l k,
      eat_until goal s = (.ok l, ⟨s.source, s.index + k⟩) ∧
      ((k = (s.source.drop s.index).length ∧ l = s.source.drop s.index) ∨
       (k = l.length + 1 ∧ k ≤ (s.source.drop s.index).length ∧
        l = (s.source.drop s.index).take l.length ∧
        (s.source.drop s.index)[l.length]? = some goal ∧
        (∀ j, l.length = j + 1 → ¬(s.source.drop s.index)[j]? = some '\\') ∧
        (∀ i, i < l.length → (s.source.drop s.index)[i]? = some goal →
          ∃ j, i = j + 1 ∧ (s.source.drop s.index)[j]? = some '\\'))) := by
  obtain ⟨l, k, heq, hdisj⟩ :=
    eat_until_go_spec goal (s.source.length - s.index) false [] s (le_refl _)
  refine ⟨l, k, by simpa using heq, ?_⟩
  rcases hdisj with hleft | ⟨hk, hklen, hltake, hgoal, _, hpred, hfirst⟩
  · exact Or.inl hleft
  · refine Or.inr ⟨hk, hklen, hltake, hgoal, hpred, ?_⟩
    intro i hi hg
    obtain ⟨h0, hprev⟩ := hfirst i hi hg
    cases i with
    | zero => cases h0 rfl
    | succ j => exact ⟨j, rfl, hprev j rfl⟩

theorem eat_until_shape (goal : Char) (s : Lexer) :
    ∃ l k, eat_until goal s = (.ok l, ⟨s.source, s.index + k⟩) ∧
      k ≤ s.source.length - s.index := by
  obtain ⟨l, k, heq, hdisj⟩ := eat_until_spec goal s
  refine ⟨l, k, heq, ?_⟩
  have hlen : (s.source.drop s.index).length = s.source.length - s.index :=
    List.length_drop _ _
  rcases hdisj with ⟨hk, _⟩ | ⟨_, hklen, _⟩
  · omega
  · omega

theorem eat_number_go_inst (fuel : Nat) :
    ∀ (period_passed : Bool) (result : List Char) (s : Lexer),
      eat_number_literal_go period_passed result s fuel =
        eat_number_literal_go_p charIsNumeric period_passed result s fuel := by
  induction fuel with
  | zero => intro period_passed result s; rfl
  | succ n ih =>
    intro period_passed result s
    simp only [eat_number_literal_go, eat_number_literal_go_p]
    cases hp : s.peek with
    | error e => rfl
    | ok c =>
      dsimp only
      by_cases hdot : c = '.'
      · rw [if_pos hdot, if_pos hdot]
        by_cases hpp : period_passed = true
        · rw [if_pos hpp, if_pos hpp]
        · rw [if_neg hpp, if_neg hpp]
          cases he : eat c s with
          | mk r s' =>
          cases r with
          | error e => rfl
          | ok u =>
            dsimp only
            exact ih true (result ++ [c]) s'
      · rw [if_neg hdot, if_neg hdot]
        by_cases hnum : charIsNumeric c = true
        · rw [if_pos hnum, if_pos hnum]
          cases he : eat c s with
          | mk r s' =>
          cases r with
          | error e => rfl
          | ok u =>
            dsimp only
            exact ih period_passed (result ++ [c]) s'
        · rw [if_neg hnum, if_neg hnum]

theorem eat_alphanumeric_go_inst (fuel : Nat) :
    ∀ (result : List Char) (s : Lexer),
      eat_alphanumeric_go result s fuel =
        eat_alphanumeric_go_p charIsAlphanumeric result s fuel := by
  induction fuel with
  | zero => intro result s; rfl
  | succ n ih =>
    intro result s
    simp only [eat_alphanumeric_go, eat_alphanumeric_go_p]
    cases hp : s.peek with
    | error e => rfl
    | ok c =>
      dsimp only
      by_cases hcond : c ≠ '_' ∧ ¬charIsAlphanumeric c = true
      · rw [if_pos hcond, if_pos hcond]
      · rw [if_neg hcond, if_neg hcond]
        cases he : eat c s with
        | mk r s' =>
        cases r with
        | error e => rfl
        | ok u =>
          dsimp only
          exact ih (result ++ [c]) s'

theorem eat_number_literal_inst (s : Lexer) :
    eat_number_literal s = eat_number_literal_p charIsNumeric s := by
  unfold eat_number_literal eat_number_literal_p
  rw [eat_number_go_inst]

theorem eat_alphanumeric_inst (s : Lexer) :
    eat_alphanumeric s = eat_alphanumeric_p charIsAlphanumeric s := by
  unfold eat_alphanumeric eat_alphanumeric_p
  rw [eat_alphanumeric_go_inst]
theorem eat_alphanumeric_go_p_spec (is_alnum : Char → Bool) (fuel : Nat) :
    ∀ (result : List Char) (s : Lexer),
      s.source.length - s.index ≤ fuel →
      eat_alphanumeric_go_p is_alnum result s fuel =
        (.ok (result ++
            (s.source.drop s.index).takeWhile (fun c => c == '_' || is_alnum c)),
          ⟨s.source, s.index +
            ((s.source.drop s.index).takeWhile
              (fun c => c == '_' || is_alnum c)).length⟩) := by
  induction fuel with
  | zero =>
    intro result s h
    have hd : s.source.drop s.index = [] := drop_index_nil (by omega)
    simp [eat_alphanumeric_go_p, hd]
  | succ n ih =>
    intro result s h
    cases hp : s.peek with
    | error e =>
      have hle := (peek_error_le hp).1
      have hd : s.source.drop s.index = [] := drop_index_nil hle
      simp [eat_alphanumeric_go_p, hp, hd]
    | ok c =>
      have hlt := peek_ok_lt hp
      have hd : s.source.drop s.index = c :: s.source.drop (s.index + 1) :=
        drop_index_cons (peek_ok_getElem hp)
      simp only [eat_alphanumeric_go_p, hp]
      by_cases hw : (c == '_' || is_alnum c) = true
      · have hcond : ¬(c ≠ '_' ∧ ¬is_alnum c = true) := by
          rcases Bool.or_eq_true_iff.mp hw with h1 | h1
          · intro hcontra
            exact hcontra.1 (by simpa using h1)
          · intro hcontra
            exact hcontra.2 h1
        rw [if_neg hcond, eat_after_peek hp]
        dsimp only
        have := ih (result ++ [c]) ⟨s.source, s.index + 1⟩ (by simp; omega)
        simp only at this
        rw [this, hd]
        simp only [List.takeWhile_cons]
        rw [if_pos hw]
        simp only [List.append_assoc, List.singleton_append, List.length_cons]
        congr 2
        omega
      · have hcond : c ≠ '_' ∧ ¬is_alnum c = true := by
          constructor
          · intro hcontra
            rw [hcontra] at hw
            simp at hw
          · intro hcontra
            rw [hcontra] at hw
            simp at hw
        have hw' : (c == '_' || is_alnum c) = false := by
          cases hval : (c == '_' || is_alnum c)
          · rfl
          · exact absurd hval hw
        rw [if_pos hcond, hd]
        simp only [List.takeWhile_cons]
        rw [if_neg (by rw [hw']; exact Bool.false_ne_true)]
        simp
      
theorem eat_alphanumeric_p_spec (is_alnum : Char → Bool) (s : Lexer) :
    eat_alphanumeric_p is_alnum s =
      (.ok ((s.source.drop s.index).takeWhile (fun c => c == '_' || is_alnum c)),
        ⟨s.source, s.index +
          ((s.source.drop s.index).takeWhile
            (fun c => c == '_' || is_alnum c)).length⟩) := by
  have := eat_alphanumeric_go_p_spec is_alnum (s.source.length - s.index) [] s (le_refl _)
  simpa using this

theorem eat_number_go_p_spec (is_num : Char → Bool) (fuel : Nat) :
    ∀ (period_passed : Bool) (result : List Char) (s : Lexer),
      s.source.length - s.index ≤ fuel →
      (∃ l k,
        eat_number_literal_go_p is_num period_passed result s fuel =
          (.ok (result ++ l), ⟨s.source, s.index + k⟩) ∧
        k = l.length ∧ l = (s.source.drop s.index).take k ∧
        (∀ c ∈ l, is_num c = true ∨ c = '.') ∧
        l.count '.' + (bif period_passed then 1 else 0) ≤ 1 ∧
        ((s.source.drop s.index)[k]? = none ∨
         ∃ d, (s.source.drop s.index)[k]? = some d ∧ d ≠ '.' ∧ is_num d = false)) ∨
      (∃ k,
        eat_number_literal_go_p is_num period_passed result s fuel =
          (.error .InvalidNumber, ⟨s.source, s.index + k⟩) ∧
        k ≤ (s.source.drop s.index).length ∧
        (s.source.drop s.index)[k]? = some '.' ∧
        (period_passed = true ∨ '.' ∈ (s.source.drop s.index).take k)) := by
  induction fuel with
  | zero =>
    intro period_passed result s h
    have hd : s.source.drop s.index = [] := drop_index_nil (by omega)
    left
    refine ⟨[], 0, by simp [eat_number_literal_go_p], rfl, by simp [hd], by simp, ?_, ?_⟩
    · cases period_passed <;> simp
    · left
      rw [hd]
      rfl
  | succ n ih =>
    intro period_passed result s h
    cases hp : s.peek with
    | error e =>
      have hle := (peek_error_le hp).1
      have hd : s.source.drop s.index = [] := drop_index_nil hle
      left
      refine ⟨[], 0, by simp [eat_number_literal_go_p, hp], rfl, by simp [hd], by simp, ?_, ?_⟩
      · cases period_passed <;> simp
      · left
        rw [hd]
        rfl
    | ok c =>
      have hlt := peek_ok_lt hp
      have hd : s.source.drop s.index = c :: s.source.drop (s.index + 1) :=
        drop_index_cons (peek_ok_getElem hp)
      by_cases hdot : c = '.'
      · by_cases hpp : period_passed = true
        · right
          refine ⟨0, ?_, by omega, ?_, Or.inl hpp⟩
          · simp only [eat_number_literal_go_p, hp]
            rw [if_pos hdot, if_pos hpp]
            simp
          · rw [hd]
            simp [hdot]
        · have hppf : period_passed = false := by
            cases period_passed
            · rfl
            · exact absurd rfl hpp
          rcases ih true (result ++ [c]) ⟨s.source, s.index + 1⟩ (by simp; omega) with
            ⟨l', k', heq, hkl, htake, hmem, hcount, hstop⟩ | ⟨k', heq, hklen, hdot', hmem⟩
          · left
            simp only at heq htake hmem hcount hstop
            refine ⟨c :: l', k' + 1, ?_, by simp [hkl], ?_, ?_, ?_, ?_⟩
            · simp only [eat_number_literal_go_p, hp]
              rw [if_pos hdot, if_neg (by rw [hppf]; exact Bool.false_ne_true),
                eat_after_peek hp]
              dsimp only
              rw [heq]
              simp only [List.append_assoc, List.singleton_append]
              congr 2
              omega
            · rw [hd, List.take_succ_cons, ← htake]
            · intro x hx
              rcases List.mem_cons.mp hx with hx | hx
              · right
                rw [hx, hdot]
              · exact hmem x hx
            · rw [hppf]
              simp only [Bool.cond_false, Nat.add_zero]
              rw [hdot]
              have hcc : List.count '.' ('.' :: l') = List.count '.' l' + 1 := by simp
              rw [hcc]
              simp only [Bool.cond_true] at hcount
              omega
            · rcases hstop with hnone | ⟨d, hsome, hd1, hd2⟩
              · left
                rw [hd]
                simp only [List.getElem?_cons_succ]
                exact hnone
              · right
                refine ⟨d, ?_, hd1, hd2⟩
                rw [hd]
                simp only [List.getElem?_cons_succ]
                exact hsome
          · right
            simp only at heq hklen hdot' hmem
            refine ⟨k' + 1, ?_, ?_, ?_, ?_⟩
            · simp only [eat_number_literal_go_p, hp]
              rw [if_pos hdot, if_neg (by rw [hppf]; exact Bool.false_ne_true),
                eat_after_peek hp]
              dsimp only
              rw [heq]
              congr 2
              omega
            · rw [hd]
              simp only [List.length_cons]
              omega
            · rw [hd]
              simpa using hdot'
            · right
              rw [hd, List.take_succ_cons, hdot]
              exact List.mem_cons_self _ _
      · by_cases hnum : is_num c = true
        · rcases ih period_passed (result ++ [c]) ⟨s.source, s.index + 1⟩ (by simp; omega) with
            ⟨l', k', heq, hkl, htake, hmem, hcount, hstop⟩ | ⟨k', heq, hklen, hdot', hmem⟩
          · left
            simp only at heq htake hmem hcount hstop
            refine ⟨c :: l', k' + 1, ?_, by simp [hkl], ?_, ?_, ?_, ?_⟩
            · simp only [eat_number_literal_go_p, hp]
              rw [if_neg hdot, if_pos hnum, eat_after_peek hp]
              dsimp only
              rw [heq]
              simp only [List.append_assoc, List.singleton_append]
              congr 2
              omega
            · rw [hd, List.take_succ_cons, ← htake]
            · intro x hx
              rcases List.mem_cons.mp hx with hx | hx
              · left
                rw [hx]
                exact hnum
              · exact hmem x hx
            · simp only [List.count_cons]
              have hne : (c == '.') = false := by
                cases hcc : (c == '.')
                · rfl
                · exact absurd (by simpa using hcc) hdot
              rw [hne]
              simpa using hcount
            · rcases hstop with hnone | ⟨d, hsome, hd1, hd2⟩
              · left
                rw [hd]
                simp only [List.getElem?_cons_succ]
                exact hnone
              · right
                refine ⟨d, ?_, hd1, hd2⟩
                rw [hd]
                simp only [List.getElem?_cons_succ]
                exact hsome
          · right
            simp only at heq hklen hdot' hmem
            refine ⟨k' + 1, ?_, ?_, ?_, ?_⟩
            · simp only [eat_number_literal_go_p, hp]
              rw [if_neg hdot, if_pos hnum, eat_after_peek hp]
              dsimp only
              rw [heq]
              congr 2
              omega
            · rw [hd]
              simp only [List.length_cons]
              omega
            · rw [hd]
              simpa using hdot'
            · rcases hmem with hpp | hin
              · exact Or.inl hpp
              · right
                rw [hd, List.take_succ_cons]
                exact List.mem_cons_of_mem c hin
        · left
          refine ⟨[], 0, ?_, rfl, by simp, by simp, ?_, ?_⟩
          · simp only [eat_number_literal_go_p, hp]
            rw [if_neg hdot, if_neg hnum]
            simp
          · cases period_passed <;> simp
          · right
            refine ⟨c, ?_, hdot, ?_⟩
            · rw [hd]
              simp
            · cases hval : is_num c
              · rfl
              · exact absurd hval hnum

theorem eat_number_literal_p_spec (is_num : Char → Bool) (s : Lexer) :
    (∃ l k,
      eat_number_literal_p is_num s = (.ok l, ⟨s.source, s.index + k⟩) ∧
      k = l.length ∧ l = (s.source.drop s.index).take k ∧
      (∀ c ∈ l, is_num c = true ∨ c = '.') ∧
      l.count '.' ≤ 1 ∧
      ((s.source.drop s.index)[k]? = none ∨
       ∃ d, (s.source.drop s.index)[k]? = some d ∧ d ≠ '.' ∧ is_num d = false)) ∨
    (∃ k,
      eat_number_literal_p is_num s = (.error .InvalidNumber, ⟨s.source, s.index + k⟩) ∧
      k ≤ (s.source.drop s.index).length ∧
      (s.source.drop s.index)[k]? = some '.' ∧
      '.' ∈ (s.source.drop s.index).take k) := by
  rcases eat_number_go_p_spec is_num (s.source.length - s.index) false [] s (le_refl _) with
    ⟨l, k, heq, hkl, htake, hmem, hcount, hstop⟩ | ⟨k, heq, hklen, hdot, hmem⟩
  · left
    refine ⟨l, k, by simpa [eat_number_literal_p] using heq, hkl, htake, hmem, ?_, hstop⟩
    simpa using hcount
  · right
    refine ⟨k, by simpa [eat_number_literal_p] using heq, hklen, hdot, ?_⟩
    rcases hmem with habs | hin
    · cases habs
    · exact hin

theorem eat_alphanumeric_go_spec (fuel : Nat) :
    ∀ (result : List Char) (s : Lexer),
      s.source.length - s.index ≤ fuel →
      eat_alphanumeric_go result s fuel =
        (.ok (result ++
            (s.source.drop s.index).takeWhile (fun c => c == '_' || charIsAlphanumeric c)),
          ⟨s.source, s.index +
            ((s.source.drop s.index).takeWhile
              (fun c => c == '_' || charIsAlphanumeric c)).length⟩) := by
  intro result s h
  rw [eat_alphanumeric_go_inst]
  exact eat_alphanumeric_go_p_spec charIsAlphanumeric fuel result s h

theorem eat_alphanumeric_spec (s : Lexer) :
    eat_alphanumeric s =
      (.ok ((s.source.drop s.index).takeWhile (fun c => c == '_' || charIsAlphanumeric c)),
        ⟨s.source, s.index +
          ((s.source.drop s.index).takeWhile
            (fun c => c == '_' || charIsAlphanumeric c)).length⟩) := by
  have := eat_alphanumeric_go_spec (s.source.length - s.index) [] s (le_refl _)
  simpa using this

theorem eat_number_go_spec (fuel : Nat) :
    ∀ (period_passed : Bool) (result : List Char) (s : Lexer),
      s.source.length - s.index ≤ fuel →
      (∃ l k,
        eat_number_literal_go period_passed result s fuel =
          (.ok (result ++ l), ⟨s.source, s.index + k⟩) ∧
        k = l.length ∧ l = (s.source.drop s.index).take k ∧
        (∀ c ∈ l, charIsNumeric c = true ∨ c = '.') ∧
        l.count '.' + (bif period_passed then 1 else 0) ≤ 1 ∧
        ((s.source.drop s.index)[k]? = none ∨
         ∃ d, (s.source.drop s.index)[k]? = some d ∧ d ≠ '.' ∧ charIsNumeric d = false)) ∨
      (∃ k,
        eat_number_literal_go period_passed result s fuel =
          (.error .InvalidNumber, ⟨s.source, s.index + k⟩) ∧
        k ≤ (s.source.drop s.index).length ∧
        (s.source.drop s.index)[k]? = some '.' ∧
        (period_passed = true ∨ '.' ∈ (s.source.drop s.index).take k)) := by
  intro period_passed result s h
  rw [eat_number_go_inst]
  exact eat_number_go_p_spec charIsNumeric fuel period_passed result s h

theorem eat_number_literal_spec (s : Lexer) :
    (∃ l k,
      eat_number_literal s = (.ok l, ⟨s.source, s.index + k⟩) ∧
      k = l.length ∧ l = (s.source.drop s.index).take k ∧
      (∀ c ∈ l, charIsNumeric c = true ∨ c = '.') ∧
      l.count '.' ≤ 1 ∧
      ((s.source.drop s.index)[k]? = none ∨
       ∃ d, (s.source.drop s.index)[k]? = some d ∧ d ≠ '.' ∧ charIsNumeric d = false)) ∨
    (∃ k,
      eat_number_literal s = (.error .InvalidNumber, ⟨s.source, s.index + k⟩) ∧
      k ≤ (s.source.drop s.index).length ∧
      (s.source.drop s.index)[k]? = some '.' ∧
      '.' ∈ (s.source.drop s.index).take k) := by
  rcases eat_number_go_spec (s.source.length - s.index) false [] s (le_refl _) with
    ⟨l, k, heq, hkl, htake, hmem, hcount, hstop⟩ | ⟨k, heq, hklen, hdot, hmem⟩
  · left
    refine ⟨l, k, by simpa [eat_number_literal] using heq, hkl, htake, hmem, ?_, hstop⟩
    simpa using hcount
  · right
    refine ⟨k, by simpa [eat_number_literal] using heq, hklen, hdot, ?_⟩
    rcases hmem with habs | hin
    · cases habs
    · exact hin

theorem eat_number_literal_shape (s : Lexer) :
    ∃ r k, eat_number_literal s = (r, ⟨s.source, s.index + k⟩) ∧
      k ≤ s.source.length - s.index ∧ r ≠ .error .CharacterMismatch ∧
      r ≠ .error .EndOfFileReached := by
  have hlen : (s.source.drop s.index).length = s.source.length - s.index :=
    List.length_drop _ _
  rcases eat_number_literal_spec s with
    ⟨l, k, heq, hkl, htake, _, _, _⟩ | ⟨k, heq, hklen, _, _⟩
  · refine ⟨.ok l, k, heq, ?_, by simp, by simp⟩
    have : l.length ≤ (s.source.drop s.index).length := by
      rw [htake, List.length_take]
      exact min_le_right _ _
    omega
  · exact ⟨.error .InvalidNumber, k, heq, by omega, by simp, by simp⟩

theorem eat_string_literal_spec (s : Lexer) {c : Char} (hp : s.peek = .ok c)
    (hc : c = '"') :
    ∃ l k, eat_string_literal s = (.ok l, ⟨s.source, s.index + 1 + k⟩) ∧
      k ≤ s.source.length - (s.index + 1) := by
  unfold eat_string_literal
  rw [hc] at hp
  rw [eat_after_peek hp]
  dsimp only
  obtain ⟨l, k, heq, hk⟩ := eat_until_shape '"' ⟨s.source, s.index + 1⟩
  simp only at heq hk
  exact ⟨l, k, by rw [heq], hk⟩

theorem takeWhile_length_le (p : Char → Bool) (l : List Char) :
    (l.takeWhile p).length ≤ l.length := by
  induction l with
  | nil => simp
  | cons a t ih =>
    rw [List.takeWhile_cons]
    by_cases h : p a = true
    · rw [if_pos h]
      simp only [List.length_cons]
      omega
    · rw [if_neg h]
      simp

theorem charIsNumeric_of_digit {c : Char} (h1 : '0' ≤ c) (h2 : c ≤ '9') :
    charIsNumeric c = true := by
  have hd : c.isDigit = true := by
    simp [Char.isDigit]
    exact ⟨h1, h2⟩
  simpa [charIsNumeric] using hd

theorem word_pred_true {c : Char}
    (h : ('a' ≤ c ∧ c ≤ 'z') ∨ ('A' ≤ c ∧ c ≤ 'Z') ∨ c = '_') :
    (c == '_' || charIsAlphanumeric c) = true := by
  rcases h with ⟨h1, h2⟩ | ⟨h1, h2⟩ | h1
  · have hl : c.isLower = true := by
      simp [Char.isLower]
      exact ⟨h1, h2⟩
    simp [charIsAlphanumeric, Char.isAlpha, hl]
  · have hu : c.isUpper = true := by
      simp [Char.isUpper]
      exact ⟨h1, h2⟩
    simp [charIsAlphanumeric, Char.isAlpha, hu]
  · rw [h1]
    simp

theorem facts_ok {s s' : Lexer} (hsrc : s'.source = s.source)
    (hmono : s.index < s'.index) (hwf : s'.index ≤ s.source.length) (t : Token) :
    NextTokenFacts s (.ok t) s' := by
  refine ⟨hsrc, by omega, hwf, by simp, fun _ _ => hmono, by simp, by simp, by simp⟩

theorem facts_eof {s s' : Lexer} (hsrc : s'.source = s.source)
    (hmono : s.index ≤ s'.index) (hend : s'.index = s.source.length) :
    NextTokenFacts s (.error .EndOfFileReached) s' := by
  refine ⟨hsrc, hmono, by omega, by simp, by simp, fun _ => hend, by simp, by simp⟩

theorem facts_invalid {s s' : Lexer} (hsrc : s'.source = s.source)
    (hmono : s.index < s'.index) (hwf : s'.index ≤ s.source.length) :
    NextTokenFacts s (.error .InvalidNumber) s' := by
  refine ⟨hsrc, by omega, hwf, by simp, by simp, by simp, fun _ => hmono, by simp⟩

theorem facts_unknown {s s' : Lexer} (hsrc : s'.source = s.source)
    (hmono : s.index ≤ s'.index) (hwf : s'.index ≤ s.source.length)
    (hfix : next_token s' = (.error .UnknownCharacter, s')) :
    NextTokenFacts s (.error .UnknownCharacter) s' := by
  refine ⟨hsrc, hmono, hwf, by simp, by simp, by simp, by simp, fun _ => hfix⟩

theorem next_token_main (s : Lexer) (hwf : s.index ≤ s.source.length) :
    ∀ r s', next_token s = (r, s') → NextTokenFacts s r s' := by
  intro r s' heq
  have hqlen : ((s.source.drop s.index).takeWhile charIsWhitespace).length ≤
      s.source.length - s.index := by
    have h1 := takeWhile_length_le charIsWhitespace (s.source.drop s.index)
    have h2 : (s.source.drop s.index).length = s.source.length - s.index :=
      List.length_drop _ _
    omega
  unfold next_token at heq
  rw [trim_spec s] at heq
  dsimp only at heq
  set i₁ : Nat := s.index + ((s.source.drop s.index).takeWhile charIsWhitespace).length
    with hi₁
  have hwf₁ : i₁ ≤ s.source.length := by omega
  have hmono₁ : s.index ≤ i₁ := by omega
  cases hp : Lexer.peek ⟨s.source, i₁⟩ with
  | error e =>
    rw [hp] at heq
    dsimp only at heq
    injection heq with ha hb
    subst ha
    subst hb
    obtain ⟨hle, hee⟩ := peek_error_le hp
    dsimp only at hle
    subst hee
    refine facts_eof ?_ ?_ ?_
    · rfl
    · exact hmono₁
    · first | omega | (dsimp only; omega)
  | ok c =>
    rw [hp] at heq
    dsimp only at heq
    have hlt₁ : i₁ < s.source.length := by
      have := peek_ok_lt hp
      simpa using this
    have hgc : s.source[i₁]? = some c := by
      have := peek_ok_getElem hp
      simpa using this
    by_cases h1 : c = '+'
    · rw [if_pos h1] at heq
      rw [h1] at hp
      rw [eat_after_peek hp] at heq
      dsimp only at heq
      have hsh := eat_state_shape '+' ⟨s.source, i₁ + 1⟩
      cases he2 : eat '+' ⟨s.source, i₁ + 1⟩ with
      | mk r₂ s₃ =>
      rw [he2] at heq hsh
      dsimp only at hsh
      obtain ⟨hsrc3, hlo3, hhi3, hwf3⟩ := hsh
      cases r₂ with
      | ok u =>
        dsimp only at heq
        injection heq with ha hb
        subst ha
        subst hb
        refine facts_ok hsrc3 ?_ (hwf3 (by omega)) _
        first | omega | (dsimp only; omega)
      | error e2 =>
        dsimp only at heq
        injection heq with ha hb
        subst ha
        subst hb
        refine facts_ok hsrc3 ?_ (hwf3 (by omega)) _
        first | omega | (dsimp only; omega)
    rw [if_neg h1] at heq
    by_cases h2 : c = '-'
    · rw [if_pos h2] at heq
      rw [h2] at hp
      rw [eat_after_peek hp] at heq
      dsimp only at heq
      have hsh := eat_state_shape '-' ⟨s.source, i₁ + 1⟩
      cases he2 : eat '-' ⟨s.source, i₁ + 1⟩ with
      | mk r₂ s₃ =>
      rw [he2] at heq hsh
      dsimp only at hsh
      obtain ⟨hsrc3, hlo3, hhi3, hwf3⟩ := hsh
      cases r₂ with
      | ok u =>
        dsimp only at heq
        injection heq with ha hb
        subst ha
        subst hb
        refine facts_ok hsrc3 ?_ (hwf3 (by omega)) _
        first | omega | (dsimp only; omega)
      | error e2 =>
        dsimp only at heq
        have hs32 : s₃ = ⟨s.source, i₁ + 1⟩ := eat_error_state he2
        subst hs32
        have hsh4 := eat_state_shape '>' ⟨s.source, i₁ + 1⟩
        cases he3 : eat '>' ⟨s.source, i₁ + 1⟩ with
        | mk r₄ s₄ =>
        rw [he3] at heq hsh4
        dsimp only at hsh4
        obtain ⟨hsrc4, hlo4, hhi4, hwf4⟩ := hsh4
        cases r₄ with
        | ok u =>
          dsimp only at heq
          injection heq with ha hb
          subst ha
          subst hb
          refine facts_ok hsrc4 ?_ (hwf4 (by omega)) _
          first | omega | (dsimp only; omega)
        | error e4 =>
          dsimp only at heq
          injection heq with ha hb
          subst ha
          subst hb
          refine facts_ok hsrc4 ?_ (hwf4 (by omega)) _
          first | omega | (dsimp only; omega)
    rw [if_neg h2] at heq
    by_cases h3 : c = '*'
    · rw [if_pos h3] at heq
      rw [h3] at hp
      rw [eat_after_peek hp] at heq
      dsimp only at heq
      injection heq with ha hb
      subst ha
      subst hb
      refine facts_ok ?_ ?_ ?_ _
      · rfl
      · first | omega | (dsimp only; omega)
      · first | omega | (dsimp only; omega)
    rw [if_neg h3] at heq
    by_cases h4 : c = '/'
    · rw [if_pos h4] at heq
      rw [h4] at hp
      rw [eat_after_peek hp] at heq
      dsimp only at heq
      have hsh := eat_state_shape '/' ⟨s.source, i₁ + 1⟩
      cases he2 : eat '/' ⟨s.source, i₁ + 1⟩ with
      | mk r₂ s₃ =>
      rw [he2] at heq hsh
      dsimp only at hsh
      obtain ⟨hsrc3, hlo3, hhi3, hwf3⟩ := hsh
      cases r₂ with
      | ok u =>
        dsimp only at heq
        unfold eat_line at heq
        obtain ⟨l, k, heq2, hk⟩ := eat_until_shape '\n' s₃
        rw [heq2] at heq
        dsimp only at heq
        injection heq with ha hb
        subst ha
        subst hb
        rw [hsrc3] at hk
        refine facts_ok ?_ ?_ ?_ _
        · exact hsrc3
        · first | omega | (dsimp only; omega)
        · have := hwf3 (by omega)
          first | omega | (dsimp only; omega)
      | error e2 =>
        dsimp only at heq
        have hs32 : s₃ = ⟨s.source, i₁ + 1⟩ := eat_error_state he2
        subst hs32
        have hsh4 := eat_state_shape '*' ⟨s.source, i₁ + 1⟩
        cases he3 : eat '*' ⟨s.source, i₁ + 1⟩ with
        | mk r₄ s₄ =>
        rw [he3] at heq hsh4
        dsimp only at hsh4
        obtain ⟨hsrc4, hlo4, hhi4, hwf4⟩ := hsh4
        cases r₄ with
        | ok u =>
          dsimp only at heq
          injection heq with ha hb
          subst ha
          subst hb
          refine facts_ok hsrc4 ?_ (hwf4 (by omega)) _
          first | omega | (dsimp only; omega)
        | error e4 =>
          dsimp only at heq
          injection heq with ha hb
          subst ha
          subst hb
          refine facts_ok hsrc4 ?_ (hwf4 (by omega)) _
          first | omega | (dsimp only; omega)
    rw [if_neg h4] at heq
    by_cases h5 : c = '!'
    · rw [if_pos h5] at heq
      rw [h5] at hp
      rw [eat_after_peek hp] at heq
      dsimp only at heq
      have hsh := eat_state_shape '=' ⟨s.source, i₁ + 1⟩
      cases he2 : eat '=' ⟨s.source, i₁ + 1⟩ with
      | mk r₂ s₃ =>
      rw [he2] at heq hsh
      dsimp only at hsh
      obtain ⟨hsrc3, hlo3, hhi3, hwf3⟩ := hsh
      cases r₂ with
      | ok u =>
        dsimp only at heq
        injection heq with ha hb
        subst ha
        subst hb
        refine facts_ok hsrc3 ?_ (hwf3 (by omega)) _
        first | omega | (dsimp only; omega)
      | error e2 =>
        dsimp only at heq
        injection heq with ha hb
        subst ha
        subst hb
        refine facts_ok hsrc3 ?_ (hwf3 (by omega)) _
        first | omega | (dsimp only; omega)
    rw [if_neg h5] at heq
    by_cases h6 : c = '~'
    · rw [if_pos h6] at heq
      rw [h6] at hp
      rw [eat_after_peek hp] at heq
      dsimp only at heq
      injection heq with ha hb
      subst ha
      subst hb
      refine facts_ok ?_ ?_ ?_ _
      · rfl
      · first | omega | (dsimp only; omega)
      · first | omega | (dsimp only; omega)
    rw [if_neg h6] at heq
    by_cases h7 : c = '^'
    · rw [if_pos h7] at heq
      rw [h7] at hp
      rw [eat_after_peek hp] at heq
      dsimp only at heq
      injection heq with ha hb
      subst ha
      subst hb
      refine facts_ok ?_ ?_ ?_ _
      · rfl
      · first | omega | (dsimp only; omega)
      · first | omega | (dsimp only; omega)
    rw [if_neg h7] at heq
    by_cases h8 : c = '='
    · rw [if_pos h8] at heq
      rw [h8] at hp
      rw [eat_after_peek hp] at heq
      dsimp only at heq
      have hsh := eat_state_shape '=' ⟨s.source, i₁ + 1⟩
      cases he2 : eat '=' ⟨s.source, i₁ + 1⟩ with
      | mk r₂ s₃ =>
      rw [he2] at heq hsh
      dsimp only at hsh
      obtain ⟨hsrc3, hlo3, hhi3, hwf3⟩ := hsh
      cases r₂ with
      | ok u =>
        dsimp only at heq
        injection heq with ha hb
        subst ha
        subst hb
        refine facts_ok hsrc3 ?_ (hwf3 (by omega)) _
        first | omega | (dsimp only; omega)
      | error e2 =>
        dsimp only at heq
        injection heq with ha hb
        subst ha
        subst hb
        refine facts_ok hsrc3 ?_ (hwf3 (by omega)) _
        first | omega | (dsimp only; omega)
    rw [if_neg h8] at heq
    by_cases h9 : c = '>'
    · rw [if_pos h9] at heq
      rw [h9] at hp
      rw [eat_after_peek hp] at heq
      dsimp only at heq
      have hsh := eat_state_shape '=' ⟨s.source, i₁ + 1⟩
      cases he2 : eat '=' ⟨s.source, i₁ + 1⟩ with
      | mk r₂ s₃ =>
      rw [he2] at heq hsh
      dsimp only at hsh
      obtain ⟨hsrc3, hlo3, hhi3, hwf3⟩ := hsh
      cases r₂ with
      | ok u =>
        dsimp only at heq
        injection heq with ha hb
        subst ha
        subst hb
        refine facts_ok hsrc3 ?_ (hwf3 (by omega)) _
        first | omega | (dsimp only; omega)
      | error e2 =>
        dsimp only at heq
        injection heq with ha hb
        subst ha
        subst hb
        refine facts_ok hsrc3 ?_ (hwf3 (by omega)) _
        first | omega | (dsimp only; omega)
    rw [if_neg h9] at heq
    by_cases h10 : c = '<'
    · rw [if_pos h10] at heq
      rw [h10] at hp
      rw [eat_after_peek hp] at heq
      dsimp only at heq
      have hsh := eat_state_shape '=' ⟨s.source, i₁ + 1⟩
      cases he2 : eat '=' ⟨s.source, i₁ + 1⟩ with
      | mk r₂ s₃ =>
      rw [he2] at heq hsh
      dsimp only at hsh
      obtain ⟨hsrc3, hlo3, hhi3, hwf3⟩ := hsh
      cases r₂ with
      | ok u =>
        dsimp only at heq
        injection heq with ha hb
        subst ha
        subst hb
        refine facts_ok hsrc3 ?_ (hwf3 (by omega)) _
        first | omega | (dsimp only; omega)
      | error e2 =>
        dsimp only at heq
        injection heq with ha hb
        subst ha
        subst hb
        refine facts_ok hsrc3 ?_ (hwf3 (by omega)) _
        first | omega | (dsimp only; omega)
    rw [if_neg h10] at heq
    by_cases h11 : c = '('
    · rw [if_pos h11] at heq
      rw [h11] at hp
      rw [eat_after_peek hp] at heq
      dsimp only at heq
      injection heq with ha hb
      subst ha
      subst hb
      refine facts_ok ?_ ?_ ?_ _
      · rfl
      · first | omega | (dsimp only; omega)
      · first | omega | (dsimp only; omega)
    rw [if_neg h11] at heq
    by_cases h12 : c = ')'
    · rw [if_pos h12] at heq
      rw [h12] at hp
      rw [eat_after_peek hp] at heq
      dsimp only at heq
      injection heq with ha hb
      subst ha
      subst hb
      refine facts_ok ?_ ?_ ?_ _
      · rfl
      · first | omega | (dsimp only; omega)
      · first | omega | (dsimp only; omega)
    rw [if_neg h12] at heq
    by_cases h13 : c = '{'
    · rw [if_pos h13] at heq
      rw [h13] at hp
      rw [eat_after_peek hp] at heq
      dsimp only at heq
      injection heq with ha hb
      subst ha
      subst hb
      refine facts_ok ?_ ?_ ?_ _
      · rfl
      · first | omega | (dsimp only; omega)
      · first | omega | (dsimp only; omega)
    rw [if_neg h13] at heq
    by_cases h14 : c = '}'
    · rw [if_pos h14] at heq
      rw [h14] at hp
      rw [eat_after_peek hp] at heq
      dsimp only at heq
      injection heq with ha hb
      subst ha
      subst hb
      refine facts_ok ?_ ?_ ?_ _
      · rfl
      · first | omega | (dsimp only; omega)
      · first | omega | (dsimp only; omega)
    rw [if_neg h14] at heq
    by_cases h15 : c = '['
    · rw [if_pos h15] at heq
      rw [h15] at hp
      rw [eat_after_peek hp] at heq
      dsimp only at heq
      injection heq with ha hb
      subst ha
      subst hb
      refine facts_ok ?_ ?_ ?_ _
      · rfl
      · first | omega | (dsimp only; omega)
      · first | omega | (dsimp only; omega)
    rw [if_neg h15] at heq
    by_cases h16 : c = ']'
    · rw [if_pos h16] at heq
      rw [h16] at hp
      rw [eat_after_peek hp] at heq
      dsimp only at heq
      injection heq with ha hb
      subst ha
      subst hb
      refine facts_ok ?_ ?_ ?_ _
      · rfl
      · first | omega | (dsimp only; omega)
      · first | omega | (dsimp only; omega)
    rw [if_neg h16] at heq
    by_cases h17 : c = ';'
    · rw [if_pos h17] at heq
      rw [h17] at hp
      rw [eat_after_peek hp] at heq
      dsimp only at heq
      injection heq with ha hb
      subst ha
      subst hb
      refine facts_ok ?_ ?_ ?_ _
      · rfl
      · first | omega | (dsimp only; omega)
      · first | omega | (dsimp only; omega)
    rw [if_neg h17] at heq
    by_cases h18 : c = '&'
    · rw [if_pos h18] at heq
      rw [h18] at hp
      rw [eat_after_peek hp] at heq
      dsimp only at heq
      injection heq with ha hb
      subst ha
      subst hb
      refine facts_ok ?_ ?_ ?_ _
      · rfl
      · first | omega | (dsimp only; omega)
      · first | omega | (dsimp only; omega)
    rw [if_neg h18] at heq
    by_cases h19 : c = ','
    · rw [if_pos h19] at heq
      rw [h19] at hp
      rw [eat_after_peek hp] at heq
      dsimp only at heq
      injection heq with ha hb
      subst ha
      subst hb
      refine facts_ok ?_ ?_ ?_ _
      · rfl
      · first | omega | (dsimp only; omega)
      · first | omega | (dsimp only; omega)
    rw [if_neg h19] at heq
    by_cases h20 : c = '.'
    · rw [if_pos h20] at heq
      rw [h20] at hp
      rw [eat_after_peek hp] at heq
      dsimp only at heq
      injection heq with ha hb
      subst ha
      subst hb
      refine facts_ok ?_ ?_ ?_ _
      · rfl
      · first | omega | (dsimp only; omega)
      · first | omega | (dsimp only; omega)
    rw [if_neg h20] at heq
    by_cases h21 : c = '"'
    · rw [if_pos h21] at heq
      obtain ⟨l, k, heq2, hk⟩ := eat_string_literal_spec ⟨s.source, i₁⟩ hp h21
      dsimp only at heq2 hk
      rw [heq2] at heq
      dsimp only at heq
      injection heq with ha hb
      subst ha
      subst hb
      refine facts_ok ?_ ?_ ?_ _
      · rfl
      · first | omega | (dsimp only; omega)
      · first | omega | (dsimp only; omega)
    rw [if_neg h21] at heq
    by_cases h22 : '0' ≤ c ∧ c ≤ '9'
    · rw [if_pos h22] at heq
      have hd₁ : s.source.drop i₁ = c :: s.source.drop (i₁ + 1) := by
        have := drop_index_cons (s := (⟨s.source, i₁⟩ : Lexer)) hgc
        dsimp only at this
        exact this
      rcases eat_number_literal_spec ⟨s.source, i₁⟩ with
        ⟨l, k, heq2, hkl, htake, hmem, hcount, hstop⟩ | ⟨k, heq2, hklen, hdot, hmem⟩
      · dsimp only at heq2 hkl htake hmem hcount hstop
        rw [heq2] at heq
        dsimp only at heq
        injection heq with ha hb
        subst ha
        subst hb
        have hk1 : 1 ≤ k := by
          rcases Nat.eq_zero_or_pos k with hk0 | hk1
          · exfalso
            subst hk0
            rcases hstop with hnone | ⟨d, hsome, hdne, hdnum⟩
            · rw [hd₁] at hnone
              simp at hnone
            · rw [hd₁] at hsome
              simp only [List.getElem?_cons_zero] at hsome
              injection hsome with hdc
              rw [← hdc] at hdnum
              rw [charIsNumeric_of_digit h22.1 h22.2] at hdnum
              cases hdnum
          · exact hk1
        have hkle : k ≤ s.source.length - i₁ := by
          have hl1 : l.length ≤ (s.source.drop i₁).length := by
            rw [htake, List.length_take]
            exact min_le_right _ _
          have hl2 : (s.source.drop i₁).length = s.source.length - i₁ :=
            List.length_drop _ _
          omega
        refine facts_ok ?_ ?_ ?_ _
        · rfl
        · first | omega | (dsimp only; omega)
        · first | omega | (dsimp only; omega)
      · dsimp only at heq2 hklen hdot hmem
        rw [heq2] at heq
        dsimp only at heq
        injection heq with ha hb
        subst ha
        subst hb
        have hk1 : 1 ≤ k := by
          rcases Nat.eq_zero_or_pos k with hk0 | hk1
          · exfalso
            subst hk0
            simp at hmem
          · exact hk1
        have hl2 : (s.source.drop i₁).length = s.source.length - i₁ :=
          List.length_drop _ _
        refine facts_invalid ?_ ?_ ?_
        · rfl
        · first | omega | (dsimp only; omega)
        · first | omega | (dsimp only; omega)
    rw [if_neg h22] at heq
    by_cases h23 : ('a' ≤ c ∧ c ≤ 'z') ∨ ('A' ≤ c ∧ c ≤ 'Z') ∨ c = '_'
    · rw [if_pos h23] at heq
      have hpred := word_pred_true h23
      have hd₁ : s.source.drop i₁ = c :: s.source.drop (i₁ + 1) := by
        have := drop_index_cons (s := (⟨s.source, i₁⟩ : Lexer)) hgc
        dsimp only at this
        exact this
      have hspec := eat_alphanumeric_spec ⟨s.source, i₁⟩
      dsimp only at hspec
      rw [hspec] at heq
      dsimp only at heq
      have hwlen : 1 ≤
          ((s.source.drop i₁).takeWhile (fun c => c == '_' || charIsAlphanumeric c)).length := by
        rw [hd₁, List.takeWhile_cons, if_pos hpred]
        simp
      have hwle :
          ((s.source.drop i₁).takeWhile (fun c => c == '_' || charIsAlphanumeric c)).length ≤
            s.source.length - i₁ := by
        have h1 := takeWhile_length_le (fun c => c == '_' || charIsAlphanumeric c)
          (s.source.drop i₁)
        have h2 : (s.source.drop i₁).length = s.source.length - i₁ := List.length_drop _ _
        omega
      cases hkw : TokenKeyword.fromStr
          ((s.source.drop i₁).takeWhile (fun c => c == '_' || charIsAlphanumeric c)) with
      | some kw =>
        rw [hkw] at heq
        dsimp only at heq
        injection heq with ha hb
        subst ha
        subst hb
        refine facts_ok ?_ ?_ ?_ _
        · rfl
        · first | omega | (dsimp only; omega)
        · first | omega | (dsimp only; omega)
      | none =>
        rw [hkw] at heq
        dsimp only at heq
        injection heq with ha hb
        subst ha
        subst hb
        refine facts_ok ?_ ?_ ?_ _
        · rfl
        · first | omega | (dsimp only; omega)
        · first | omega | (dsimp only; omega)
    rw [if_neg h23] at heq
    injection heq with ha hb
    subst ha
    subst hb
    have hrem0 : (s.source.drop s.index)[((s.source.drop s.index).takeWhile
        charIsWhitespace).length]? = some c := by
      rw [List.getElem?_drop, ← hi₁]
      exact hgc
    have hcw : charIsWhitespace c = false := takeWhile_getElem_false hrem0
    have hd₁ : s.source.drop i₁ = c :: s.source.drop (i₁ + 1) := by
      have := drop_index_cons (s := (⟨s.source, i₁⟩ : Lexer)) hgc
      dsimp only at this
      exact this
    have hq1 : (s.source.drop i₁).takeWhile charIsWhitespace = [] := by
      rw [hd₁, List.takeWhile_cons, if_neg (by simp [hcw])]
    have htrim₁ : trim_leading_whitespace ⟨s.source, i₁⟩ = (.ok (), ⟨s.source, i₁⟩) := by
      rw [trim_spec]
      dsimp only
      rw [hq1]
      simp
    refine facts_unknown ?_ ?_ ?_ ?_
    · rfl
    · exact hmono₁
    · exact hwf₁
    unfold next_token
    rw [htrim₁]
    dsimp only
    rw [hp]
    dsimp only
    rw [if_neg h1, if_neg h2, if_neg h3, if_neg h4, if_neg h5, if_neg h6, if_neg h7,
      if_neg h8, if_neg h9, if_neg h10, if_neg h11, if_neg h12, if_neg h13, if_neg h14,
      if_neg h15, if_neg h16, if_neg h17, if_neg h18, if_neg h19, if_neg h20, if_neg h21,
      if_neg h22, if_neg h23]

theorem next_step (s : Lexer) (hwf : s.index ≤ s.source.length) :
    (Lexer.next s).2.source = s.source ∧ s.index ≤ (Lexer.next s).2.index ∧
    (Lexer.next s).2.index ≤ s.source.length ∧
    ((Lexer.next s).1 = none ∨ s.index < (Lexer.next s).2.index ∨
      Lexer.next s = (some (.error .UnknownCharacter), s)) ∧
    (Lexer.next s).1 ≠ some (.error .CharacterMismatch) ∧
    (Lexer.next s).1 ≠ some (.error .EndOfFileReached) := by
  unfold Lexer.next
  cases hnt : next_token s with
  | mk r s' =>
  obtain ⟨hsrc, hmono, hwfp, hmm, hok, heof, hinv, hunk⟩ := next_token_main s hwf r s' hnt
  cases r with
  | ok t =>
    dsimp only
    exact ⟨hsrc, hmono, hwfp, by right; left; exact hok t rfl, by simp, by simp⟩
  | error e =>
    cases e with
    | EndOfFileReached =>
      have hfin : s'.finished = true := by
        unfold finished
        have := heof rfl
        rw [hsrc, this]
        simp
      dsimp only
      rw [if_pos hfin]
      exact ⟨hsrc, hmono, hwfp, by left; rfl, by simp, by simp⟩
    | CharacterMismatch => exact absurd rfl hmm
    | InvalidNumber =>
      dsimp only
      exact ⟨hsrc, hmono, hwfp, by right; left; exact hinv rfl, by simp, by simp⟩
    | UnknownCharacter =>
      dsimp only
      rcases Nat.lt_or_ge s.index s'.index with hlt | hge
      · exact ⟨hsrc, hmono, hwfp, by right; left; exact hlt, by simp, by simp⟩
      · have hseq : s' = s := by
          have hidx : s'.index = s.index := by omega
          cases s
          cases s'
          simp only at hsrc hidx
          rw [hsrc, hidx]
        subst hseq
        exact ⟨hsrc, hmono, hwfp, by right; right; rfl, by simp, by simp⟩

theorem stateAfter_facts (s : Lexer) (hwf : s.index ≤ s.source.length) :
    ∀ n, (stateAfter s n).source = s.source ∧ (stateAfter s n).index ≤ s.source.length := by
  intro n
  induction n with
  | zero => exact ⟨rfl, hwf⟩
  | succ m ih =>
    have hwfm : (stateAfter s m).index ≤ (stateAfter s m).source.length := by
      rw [ih.1]
      exact ih.2
    have hstep := next_step (stateAfter s m) hwfm
    constructor
    · show (Lexer.next (stateAfter s m)).2.source = s.source
      rw [hstep.1, ih.1]
    · show (Lexer.next (stateAfter s m)).2.index ≤ s.source.length
      have := hstep.2.2.1
      rw [ih.1] at this
      exact this

theorem stateAfter_mono (s : Lexer) (hwf : s.index ≤ s.source.length) (n : Nat) :
    (stateAfter s n).index ≤ (stateAfter s (n + 1)).index := by
  have ih := stateAfter_facts s hwf n
  have hwfm : (stateAfter s n).index ≤ (stateAfter s n).source.length := by
    rw [ih.1]
    exact ih.2
  exact (next_step (stateAfter s n) hwfm).2.1

theorem stateAfter_succ_shift (s : Lexer) : ∀ n,
    stateAfter s (n + 1) = stateAfter ((Lexer.next s).2) n := by
  intro n
  induction n with
  | zero => rfl
  | succ m ih =>
    show (Lexer.next (stateAfter s (m + 1))).2 = stateAfter ((Lexer.next s).2) (m + 1)
    rw [ih]
    rfl

theorem itemAt_succ_shift (s : Lexer) (n : Nat) :
    itemAt s (n + 1) = itemAt ((Lexer.next s).2) n := by
  unfold itemAt
  rw [stateAfter_succ_shift]

theorem stateAfter_const {s : Lexer} (hfix : Lexer.next s = (some (.error .UnknownCharacter), s)) :
    ∀ m, stateAfter s m = s := by
  intro m
  induction m with
  | zero => rfl
  | succ k ih =>
    show (Lexer.next (stateAfter s k)).2 = s
    rw [ih, hfix]

theorem lex_dichotomy_aux : ∀ (fuel : Nat) (s : Lexer),
    s.index ≤ s.source.length → s.source.length - s.index ≤ fuel →
    (∃ n, itemAt s n = none) ∨
    (∃ n, ∀ m, n ≤ m → itemAt s m = some (.error .UnknownCharacter)) := by
  intro fuel
  induction fuel with
  | zero =>
    intro s hwf hfuel
    rcases (next_step s hwf).2.2.2.1 with hnone | hlt | hfix
    · exact Or.inl ⟨0, hnone⟩
    · exfalso
      have := (next_step s hwf).2.2.1
      omega
    · right
      refine ⟨0, fun m _ => ?_⟩
      unfold itemAt
      rw [stateAfter_const hfix, hfix]
  | succ f ih =>
    intro s hwf hfuel
    rcases (next_step s hwf).2.2.2.1 with hnone | hlt | hfix
    · exact Or.inl ⟨0, hnone⟩
    · have hstep := next_step s hwf
      have hwf' : (Lexer.next s).2.index ≤ (Lexer.next s).2.source.length := by
        rw [hstep.1]
        exact hstep.2.2.1
      have hfuel' : (Lexer.next s).2.source.length - (Lexer.next s).2.index ≤ f := by
        rw [hstep.1]
        omega
      rcases ih (Lexer.next s).2 hwf' hfuel' with ⟨n, hn⟩ | ⟨n, hn⟩
      · left
        refine ⟨n + 1, ?_⟩
        rw [itemAt_succ_shift]
        exact hn
      · right
        refine ⟨n + 1, fun m hm => ?_⟩
        cases m with
        | zero => omega
        | succ m' =>
          rw [itemAt_succ_shift]
          exact hn m' (by omega)
    · right
      refine ⟨0, fun m _ => ?_⟩
      unfold itemAt
      rw [stateAfter_const hfix, hfix]

theorem new_wf (src : String) : (Lexer.new src).index ≤ (Lexer.new src).source.length := by
  simp [Lexer.new]

theorem char_le_toNat {a b : Char} (h : a ≤ b) : a.toNat ≤ b.toNat := by
  exact h

theorem word_start_not_ws {c : Char}
    (h : ('a' ≤ c ∧ c ≤ 'z') ∨ ('A' ≤ c ∧ c ≤ 'Z') ∨ c = '_') :
    charIsWhitespace c = false := by
  rcases h with ⟨h1, h2⟩ | ⟨h1, h2⟩ | h1
  · have t1 := char_le_toNat h1
    have t2 := char_le_toNat h2
    rw [show Char.toNat 'a' = 97 from rfl] at t1
    rw [show Char.toNat 'z' = 122 from rfl] at t2
    simp [charIsWhitespace]
    omega
  · have t1 := char_le_toNat h1
    have t2 := char_le_toNat h2
    rw [show Char.toNat 'A' = 65 from rfl] at t1
    rw [show Char.toNat 'Z' = 90 from rfl] at t2
    simp [charIsWhitespace]
    omega
  · rw [h1]
    decide

theorem word_not_digit {c : Char}
    (h : ('a' ≤ c ∧ c ≤ 'z') ∨ ('A' ≤ c ∧ c ≤ 'Z') ∨ c = '_') :
    ¬('0' ≤ c ∧ c ≤ '9') := by
  intro hd
  have t2 := char_le_toNat hd.2
  rw [show Char.toNat '9' = 57 from rfl] at t2
  rcases h with ⟨h1, _⟩ | ⟨h1, _⟩ | h1
  · have u1 := char_le_toNat h1
    rw [show Char.toNat 'a' = 97 from rfl] at u1
    omega
  · have u1 := char_le_toNat h1
    rw [show Char.toNat 'A' = 65 from rfl] at u1
    omega
  · rw [h1] at t2
    revert t2
    decide

theorem takeWhile_all {p : Char → Bool} {l : List Char} (h : ∀ c ∈ l, p c = true) :
    l.takeWhile p = l := by
  induction l with
  | nil => rfl
  | cons a t ih =>
    rw [List.takeWhile_cons, if_pos (h a (List.mem_cons_self a t))]
    rw [ih (fun c hc => h c (List.mem_cons_of_mem a hc))]

theorem trim_id_not_ws {s : Lexer} {c : Char} (hp : s.peek = .ok c)
    (hws : charIsWhitespace c = false) :
    trim_leading_whitespace s = (.ok (), s) := by
  rw [trim_spec]
  have hd := drop_index_cons (peek_ok_getElem hp)
  rw [hd, List.takeWhile_cons, if_neg (by simp [hws])]
  simp

theorem next_finished {s : Lexer} (h : s.source.length = s.index) :
    Lexer.next s = (none, s) := by
  have htrim : trim_leading_whitespace s = (.ok (), s) := by
    rw [trim_spec, drop_index_nil h.le]
    simp
  have hpk : s.peek = .error .EndOfFileReached := peek_none h.le
  have hnt : next_token s = (.error .EndOfFileReached, s) := by
    unfold next_token
    rw [htrim]
    dsimp only
    rw [hpk]
  have hfin : s.finished = true := by
    unfold finished
    simp [h]
  unfold Lexer.next
  rw [hnt]
  dsimp only
  rw [if_pos hfin]

theorem stateAfter_fix_any {s : Lexer} {it : Option (Except LexerError Token)}
    (hfix : Lexer.next s = (it, s)) : ∀ m, stateAfter s m = s := by
  intro m
  induction m with
  | zero => rfl
  | succ k ih =>
    show (Lexer.next (stateAfter s k)).2 = s
    rw [ih, hfix]

theorem itemAt_finished {s : Lexer} (h : s.source.length = s.index) :
    ∀ n, itemAt s n = none := by
  intro n
  unfold itemAt
  rw [stateAfter_fix_any (next_finished h), next_finished h]

theorem peek_at_shift_none {s : Lexer} {k : Nat}
    (h : (s.source.drop s.index)[k]? = none) :
    (⟨s.source, s.index + k⟩ : Lexer).peek = .error .EndOfFileReached := by
  unfold peek
  dsimp only
  have hg : s.source[s.index + k]? = none := by
    rw [← List.getElem?_drop]
    exact h
  rw [hg]

theorem peek_at_shift_some {s : Lexer} {k : Nat} {d : Char}
    (h : (s.source.drop s.index)[k]? = some d) :
    (⟨s.source, s.index + k⟩ : Lexer).peek = .ok d := by
  unfold peek
  dsimp only
  have hg : s.source[s.index + k]? = some d := by
    rw [← List.getElem?_drop]
    exact h
  rw [hg]

/-- Claim C1, counterexample.  The claim says the backslash escapes exactly
the very next character, so that in a source-level backslash-backslash-quote
sequence the quote terminates the scan (at cursor 3, with only the two
backslashes accumulated).  In the code the escape flag is re-set by the
second (itself escaped) backslash, so the quote is skipped: the scan runs to
end of input, consumes all four characters and even keeps the goal quote in
the result. -/
theorem C1_escaped_backslash_counterexample :
    Lexer.eat_until '"' ⟨[ '\\', '\\', '"', 'x' ], 0⟩ =
      (.ok [ '\\', '\\', '"', 'x' ], ⟨[ '\\', '\\', '"', 'x' ], 4⟩) ∧
    ¬ Lexer.eat_until '"' ⟨[ '\\', '\\', '"', 'x' ], 0⟩ =
      (.ok [ '\\', '\\' ], ⟨[ '\\', '\\', '"', 'x' ], 3⟩) := by
  exact ⟨rfl, by decide⟩

/-- Claim C1 (amended).  For every goal character and every state, eat_until
returns Ok and either consumes the whole remaining input (silent fallthrough),
or stops having consumed the accumulated characters plus one terminating goal
character that is not appended to the result; the terminating goal character
is the first occurrence whose immediately preceding consumed character is not
a backslash (any backslash flags the next character as escaped, even a
backslash that was itself escaped), and every earlier goal occurrence is
directly preceded by a backslash. -/
theorem C1_eat_until_escape_amended (goal : Char) (s : Lexer) :
    ∃ l k, Lexer.eat_until goal s = (.ok l, ⟨s.source, s.index + k⟩) ∧
      ((k = (s.source.drop s.index).length ∧ l = s.source.drop s.index) ∨
       (k = l.length + 1 ∧ k ≤ (s.source.drop s.index).length ∧
        l = (s.source.drop s.index).take l.length ∧
        (s.source.drop s.index)[l.length]? = some goal ∧
        (∀ j, l.length = j + 1 → ¬(s.source.drop s.index)[j]? = some '\\') ∧
        (∀ i, i < l.length → (s.source.drop s.index)[i]? = some goal →
          ∃ j, i = j + 1 ∧ (s.source.drop s.index)[j]? = some '\\'))) :=
  eat_until_spec goal s

/-- Claim C2, counterexample.  On the input consisting of the single
character dollar, no scanning rule matches, the cursor never advances, and
the iterator yields Err(UnknownCharacter) on every pull: the token sequence
never terminates, so it is not finite. -/
theorem C2_infinite_stream_counterexample :
    ¬ ∃ n, Lexer.itemAt (Lexer.new inputDollar) n = none := by
  rintro ⟨n, hn⟩
  have hfix : Lexer.next (Lexer.new inputDollar) =
      (some (.error .UnknownCharacter), Lexer.new inputDollar) := rfl
  unfold itemAt at hn
  rw [stateAfter_fix_any hfix, hfix] at hn
  simp at hn

/-- Claim C2 (amended).  For every input string, either the iterator returns
no further items after some finite number of pulls, or some pull yields
Err(UnknownCharacter) and every pull from that point on yields
Err(UnknownCharacter): the sequence is finite except when an unmatched
character is reached, where the cursor sticks before that character and the
error repeats forever. -/
theorem C2_stream_dichotomy_amended (src : String) :
    (∃ n, Lexer.itemAt (Lexer.new src) n = none) ∨
    (∃ n, ∀ m, n ≤ m →
      Lexer.itemAt (Lexer.new src) m = some (.error .UnknownCharacter)) :=
  lex_dichotomy_aux (Lexer.new src).source.length (Lexer.new src) (new_wf src)
    (by omega)

/-- Claim C3, counterexample.  On the five-character input slash-star-a-star-
slash the first pull yields SlashStar with an empty body, but the comment
body and the closing star-slash are not consumed: the following pulls
tokenize them as Identifier, Star and Slash instead of the sequence ending
after the comment. -/
theorem C3_block_comment_counterexample :
    Lexer.itemAt (Lexer.new inputBlockComment) 0 = some (.ok (.SlashStar [])) ∧
    Lexer.itemAt (Lexer.new inputBlockComment) 1 = some (.ok (.Identifier [ 'a' ])) ∧
    Lexer.itemAt (Lexer.new inputBlockComment) 2 = some (.ok .Star) ∧
    Lexer.itemAt (Lexer.new inputBlockComment) 3 = some (.ok .Slash) ∧
    Lexer.itemAt (Lexer.new inputBlockComment) 4 = none :=
  ⟨rfl, rfl, rfl, rfl, rfl⟩

/-- Claim C3 (amended).  When the two characters at the cursor are a slash
followed by a star, next_token consumes exactly those two characters and
yields SlashStar carrying an empty string; the comment body and its closing
delimiter are left in the stream. -/
theorem C3_slashstar_amended (s : Lexer)
    (h1 : s.source[s.index]? = some '/')
    (h2 : s.source[s.index + 1]? = some '*') :
    next_token s = (.ok (.SlashStar []), ⟨s.source, s.index + 2⟩) := by
  have hp : s.peek = .ok '/' := peek_of_getElem h1
  have htrim := trim_id_not_ws hp (by decide)
  have hp2 : (⟨s.source, s.index + 1⟩ : Lexer).peek = .ok '*' := by
    unfold peek
    dsimp only
    rw [h2]
  unfold next_token
  rw [htrim]
  dsimp only
  rw [hp]
  dsimp only
  rw [if_neg (show ¬('/' = '+') from by decide),
    if_neg (show ¬('/' = '-') from by decide),
    if_neg (show ¬('/' = '*') from by decide),
    if_pos (show ('/' = '/') from rfl)]
  rw [eat_after_peek hp]
  dsimp only
  have heat2 : eat '/' ⟨s.source, s.index + 1⟩ =
      (.error .CharacterMismatch, ⟨s.source, s.index + 1⟩) := by
    unfold eat
    rw [hp2]
    simp
  rw [heat2]
  dsimp only
  rw [eat_after_peek hp2]

/-- Claim C3, witness for the amended theorem at the concrete input. -/
theorem C3_slashstar_amended_witness :
    next_token (Lexer.new inputBlockComment) =
      (.ok (.SlashStar []), ⟨inputBlockComment.data, 2⟩) :=
  C3_slashstar_amended (Lexer.new inputBlockComment) rfl rfl

/-- Claim C4.  Tokenizing the input 1.2.3 yields Err(InvalidNumber) on the
first pull.  The general clauses hold of the number-scanning loop with its
character-class test (Rust char::is_numeric, whose Unicode table cannot be
transcribed here) abstracted as a parameter, so they are proved for every
test and in particular hold at the program's own test: the scan accumulates
only characters passing the test plus at most one decimal point, a failing
scan fails with InvalidNumber exactly at a second decimal point with a first
one among the consumed characters, and a successful scan stops at the first
character that neither passes the test nor is the first decimal point.  The
second conjunct shows this file's concrete scanner is the instance of that
parametric loop at the ASCII test. -/
theorem C4_invalid_number :
    Lexer.itemAt (Lexer.new inputOneTwoThree) 0 = some (.error .InvalidNumber) ∧
    (∀ (period_passed : Bool) (result : List Char) (s : Lexer) (fuel : Nat),
      eat_number_literal_go period_passed result s fuel =
        eat_number_literal_go_p charIsNumeric period_passed result s fuel) ∧
    (∀ (is_num : Char → Bool) (s : Lexer) (l : List Char) (s' : Lexer),
      Lexer.eat_number_literal_p is_num s = (.ok l, s') →
      (∀ c ∈ l, is_num c = true ∨ c = '.') ∧ l.count '.' ≤ 1 ∧
      (s'.peek = .error .EndOfFileReached ∨
        ∃ d, s'.peek = .ok d ∧ d ≠ '.' ∧ is_num d = false)) ∧
    (∀ (is_num : Char → Bool) (s : Lexer) (e : LexerError) (s' : Lexer),
      Lexer.eat_number_literal_p is_num s = (.error e, s') →
      e = .InvalidNumber ∧ s'.peek = .ok '.' ∧
      '.' ∈ (s.source.drop s.index).take (s'.index - s.index)) := by
  refine ⟨rfl, fun pp result s fuel => eat_number_go_inst fuel pp result s, ?_, ?_⟩
  · intro is_num s l s' heq
    rcases eat_number_literal_p_spec is_num s with
      ⟨l₀, k, heq₀, hkl, htake, hmem, hcount, hstop⟩ | ⟨k, heq₀, _, _, _⟩
    · rw [heq₀] at heq
      injection heq with hr hs
      injection hr with hr
      subst hr
      subst hs
      refine ⟨hmem, hcount, ?_⟩
      rcases hstop with hnone | ⟨d, hsome, hd1, hd2⟩
      · exact Or.inl (peek_at_shift_none hnone)
      · exact Or.inr ⟨d, peek_at_shift_some hsome, hd1, hd2⟩
    · rw [heq₀] at heq
      injection heq with hr hs
      cases hr
  · intro is_num s e s' heq
    rcases eat_number_literal_p_spec is_num s with
      ⟨l₀, k, heq₀, _, _, _, _, _⟩ | ⟨k, heq₀, hklen, hdot, hmem⟩
    · rw [heq₀] at heq
      injection heq with hr hs
      cases hr
    · rw [heq₀] at heq
      injection heq with hr hs
      injection hr with hr
      subst hr
      subst hs
      refine ⟨rfl, peek_at_shift_some hdot, ?_⟩
      have hidx : (⟨s.source, s.index + k⟩ : Lexer).index - s.index = k := by
        dsimp only
        omega
      rw [hidx]
      exact hmem

/-- Claim C5.  An unterminated string literal does not produce an error: on
the input quote-a-b-c with no closing quote, the first pull yields
Ok(Str "abc") — the characters accumulated before input ran out — and every
later pull returns no item.  In general eat_until never returns an error: if
input is exhausted before the goal is found it returns whatever was
accumulated. -/
theorem C5_unterminated_string :
    Lexer.itemAt (Lexer.new inputUnterminated) 0 = some (.ok (.Str [ 'a', 'b', 'c' ])) ∧
    (∀ n, 1 ≤ n → Lexer.itemAt (Lexer.new inputUnterminated) n = none) ∧
    (∀ (goal : Char) (s : Lexer), ∃ l s', Lexer.eat_until goal s = (.ok l, s')) := by
  refine ⟨rfl, ?_, ?_⟩
  · intro n hn
    obtain ⟨m, rfl⟩ : ∃ m, n = m + 1 := ⟨n - 1, by omega⟩
    rw [itemAt_succ_shift]
    have h2 : (Lexer.next (Lexer.new inputUnterminated)).2 =
        ⟨inputUnterminated.data, 4⟩ := rfl
    rw [h2]
    exact itemAt_finished rfl m
  · intro goal s
    obtain ⟨l, k, heq, _⟩ := eat_until_spec goal s
    exact ⟨l, _, heq⟩

/-- Claim C6.  Keyword versus identifier classification uses maximal munch at
the word-boundary level: tokenizing the input for-space-foreign yields
Keyword(For) then Identifier("foreign") and nothing else, never splitting the
prefix.  The general clauses abstract the run's character-class test (Rust
char::is_alphanumeric, whose Unicode table cannot be transcribed here) as a
parameter, so they are proved for every test and in particular hold at the
program's own test: whenever the character at the cursor continues a word,
the entire maximal run of underscore-or-test-passing characters is captured
first (the run is nonempty and the character following it, if any, fails the
test), and only then is that whole run matched against the keyword table,
Keyword on an exact match and Identifier otherwise (classify_word_p, the
translation of the word arm of next_token).  The other conjuncts show this
file's concrete scanner is the instance of the parametric loop at the ASCII
test, and that on a letter or underscore the concrete next_token is exactly
that capture-then-classify composition. -/
theorem C6_keyword_maximal_munch :
    Lexer.itemAt (Lexer.new inputForForeign) 0 = some (.ok (.Keyword .For)) ∧
    Lexer.itemAt (Lexer.new inputForForeign) 1 = some (.ok (.Identifier "foreign".data)) ∧
    Lexer.itemAt (Lexer.new inputForForeign) 2 = none ∧
    (∀ (result : List Char) (s : Lexer) (fuel : Nat),
      eat_alphanumeric_go result s fuel =
        eat_alphanumeric_go_p charIsAlphanumeric result s fuel) ∧
    (∀ (s : Lexer) (c : Char), s.peek = .ok c →
      ('a' ≤ c ∧ c ≤ 'z') ∨ ('A' ≤ c ∧ c ≤ 'Z') ∨ c = '_' →
      next_token s = classify_word_p charIsAlphanumeric s) ∧
    (∀ (is_alnum : Char → Bool) (s : Lexer) (c : Char),
      s.peek = .ok c → (c == '_' || is_alnum c) = true →
      ∃ w s₂, Lexer.eat_alphanumeric_p is_alnum s = (.ok w, s₂) ∧ w ≠ [] ∧
        w = (s.source.drop s.index).takeWhile (fun d => d == '_' || is_alnum d) ∧
        classify_word_p is_alnum s =
          (match TokenKeyword.fromStr w with
            | some kw => (.ok (.Keyword kw), s₂)
            | none => (.ok (.Identifier w), s₂)) ∧
        (s₂.peek = .error .EndOfFileReached ∨
          ∃ d, s₂.peek = .ok d ∧ (d == '_' || is_alnum d) = false)) := by
  refine ⟨rfl, rfl, rfl,
    fun result s fuel => eat_alphanumeric_go_inst fuel result s, ?_, ?_⟩
  · intro s c hp hword
    have hws := word_start_not_ws hword
    have htrim := trim_id_not_ws hp hws
    unfold next_token
    rw [htrim]
    dsimp only
    rw [hp]
    dsimp only
    rw [if_neg (show ¬(c = '+') from fun he => absurd (he ▸ hword) (by decide)),
      if_neg (show ¬(c = '-') from fun he => absurd (he ▸ hword) (by decide)),
      if_neg (show ¬(c = '*') from fun he => absurd (he ▸ hword) (by decide)),
      if_neg (show ¬(c = '/') from fun he => absurd (he ▸ hword) (by decide)),
      if_neg (show ¬(c = '!') from fun he => absurd (he ▸ hword) (by decide)),
      if_neg (show ¬(c = '~') from fun he => absurd (he ▸ hword) (by decide)),
      if_neg (show ¬(c = '^') from fun he => absurd (he ▸ hword) (by decide)),
      if_neg (show ¬(c = '=') from fun he => absurd (he ▸ hword) (by decide)),
      if_neg (show ¬(c = '>') from fun he => absurd (he ▸ hword) (by decide)),
      if_neg (show ¬(c = '<') from fun he => absurd (he ▸ hword) (by decide)),
      if_neg (show ¬(c = '(') from fun he => absurd (he ▸ hword) (by decide)),
      if_neg (show ¬(c = ')') from fun he => absurd (he ▸ hword) (by decide)),
      if_neg (show ¬(c = '{') from fun he => absurd (he ▸ hword) (by decide)),
      if_neg (show ¬(c = '}') from fun he => absurd (he ▸ hword) (by decide)),
      if_neg (show ¬(c = '[') from fun he => absurd (he ▸ hword) (by decide)),
      if_neg (show ¬(c = ']') from fun he => absurd (he ▸ hword) (by decide)),
      if_neg (show ¬(c = ';') from fun he => absurd (he ▸ hword) (by decide)),
      if_neg (show ¬(c = '&') from fun he => absurd (he ▸ hword) (by decide)),
      if_neg (show ¬(c = ',') from fun he => absurd (he ▸ hword) (by decide)),
      if_neg (show ¬(c = '.') from fun he => absurd (he ▸ hword) (by decide)),
      if_neg (show ¬(c = '"') from fun he => absurd (he ▸ hword) (by decide)),
      if_neg (word_not_digit hword), if_pos hword]
    unfold classify_word_p
    rw [eat_alphanumeric_inst]
  · intro is_alnum s c hp hc2
    have hspec := eat_alphanumeric_p_spec is_alnum s
    have hd := drop_index_cons (peek_ok_getElem hp)
    refine ⟨_, _, hspec, ?_, rfl, ?_, ?_⟩
    · rw [hd, List.takeWhile_cons, if_pos hc2]
      simp
    · unfold classify_word_p
      rw [hspec]
    · cases hnx : (s.source.drop s.index)[((s.source.drop s.index).takeWhile
          (fun d => d == '_' || is_alnum d)).length]? with
      | none => exact Or.inl (peek_at_shift_none hnx)
      | some d =>
        exact Or.inr ⟨d, peek_at_shift_some hnx, takeWhile_getElem_false hnx⟩

/-- Claim C7.  The public token-sequence interface never yields
Err(CharacterMismatch): on a lexer constructed from any source string, no
pull produces that error. -/
theorem C7_no_character_mismatch (src : String) (n : Nat) :
    Lexer.itemAt (Lexer.new src) n ≠ some (.error .CharacterMismatch) := by
  have hfacts := stateAfter_facts (Lexer.new src) (new_wf src) n
  have hwfn : (stateAfter (Lexer.new src) n).index ≤
      (stateAfter (Lexer.new src) n).source.length := by
    rw [hfacts.1]
    exact hfacts.2
  exact (next_step _ hwfn).2.2.2.2.1

/-- Claim C8.  The cursor invariant holds throughout the lexer's lifetime:
on a lexer constructed from any source string, after any number of pulls the
buffer is unchanged and the cursor satisfies 0 ≤ index ≤ length(source); the
cursor never decreases from one pull to the next, and the single mutating
primitive (eat) moves it forward by exactly one character or not at all. -/
theorem C8_cursor_invariant (src : String) (n : Nat) :
    (stateAfter (Lexer.new src) n).source = src.data ∧
    (stateAfter (Lexer.new src) n).index ≤ src.data.length ∧
    (stateAfter (Lexer.new src) n).index ≤ (stateAfter (Lexer.new src) (n + 1)).index ∧
    (∀ (c : Char) (s : Lexer),
      (Lexer.eat c s).2.index = s.index ∨ (Lexer.eat c s).2.index = s.index + 1) := by
  have hfacts := stateAfter_facts (Lexer.new src) (new_wf src) n
  refine ⟨hfacts.1, hfacts.2, stateAfter_mono (Lexer.new src) (new_wf src) n, ?_⟩
  intro c s
  have := eat_state_shape c s
  omega

/-- Claim C9.  For every input string composed only of whitespace characters
(the empty string included), the token sequence is empty: every pull on the
iterator, the first one included, returns no item. -/
theorem C9_whitespace_only (src : String)
    (h : ∀ c ∈ src.data, charIsWhitespace c = true) :
    ∀ n, Lexer.itemAt (Lexer.new src) n = none := by
  have htake : src.data.takeWhile charIsWhitespace = src.data := takeWhile_all h
  have htrim : trim_leading_whitespace (Lexer.new src) =
      (.ok (), ⟨src.data, src.data.length⟩) := by
    rw [trim_spec]
    unfold Lexer.new
    dsimp only
    rw [List.drop_zero, htake]
    simp
  have hnt : next_token (Lexer.new src) =
      (.error .EndOfFileReached, ⟨src.data, src.data.length⟩) := by
    unfold next_token
    rw [htrim]
    dsimp only
    rw [peek_none (le_refl _)]
  have hnext : Lexer.next (Lexer.new src) = (none, ⟨src.data, src.data.length⟩) := by
    unfold Lexer.next
    rw [hnt]
    dsimp only
    rw [if_pos (by unfold finished; simp)]
  intro n
  cases n with
  | zero =>
    unfold itemAt stateAfter
    rw [hnext]
  | succ m =>
    rw [itemAt_succ_shift, hnext]
    exact itemAt_finished rfl m

/-- Claim C9, witness at a concrete whitespace-only input. -/
theorem C9_whitespace_only_witness :
    Lexer.itemAt (Lexer.new inputSpaces) 0 = none :=
  C9_whitespace_only inputSpaces (by decide) 0

/-- Claim C10.  The iterator never yields Err(EndOfFileReached) as an item:
whenever the internal next-token computation reports end of input the cursor
is exactly at the end of the source, so the sequence simply terminates and
the fallback branch that would surface the error is dead code. -/
theorem C10_no_eof_item (src : String) (n : Nat) :
    Lexer.itemAt (Lexer.new src) n ≠ some (.error .EndOfFileReached) := by
  have hfacts := stateAfter_facts (Lexer.new src) (new_wf src) n
  have hwfn : (stateAfter (Lexer.new src) n).index ≤
      (stateAfter (Lexer.new src) n).source.length := by
    rw [hfacts.1]
    exact hfacts.2
  exact (next_step _ hwfn).2.2.2.2.2

theorem eat_until_go_fuel (goal : Char) :
    ∀ (fuel : Nat) (espaced : Bool) (result : List Char) (s : Lexer) (fuel' : Nat),
      s.source.length - s.index ≤ fuel → s.source.length - s.index ≤ fuel' →
      eat_until_go goal espaced result s fuel = eat_until_go goal espaced result s fuel' := by
  intro fuel
  induction fuel with
  | zero =>
    intro espaced result s fuel' h h'
    cases fuel' with
    | zero => rfl
    | succ n =>
      have hp : s.peek = .error .EndOfFileReached := peek_none (by omega)
      simp [eat_until_go, hp]
  | succ n ih =>
    intro espaced result s fuel' h h'
    cases fuel' with
    | zero =>
      have hp : s.peek = .error .EndOfFileReached := peek_none (by omega)
      simp [eat_until_go, hp]
    | succ m =>
      simp only [eat_until_go]
      cases hp : s.peek with
      | error e => rfl
      | ok c =>
        dsimp only
        rw [eat_after_peek hp]
        have hlt := peek_ok_lt hp
        dsimp only
        by_cases hb : (!espaced && c == goal) = true
        · rw [if_pos hb, if_pos hb]
        · rw [if_neg hb, if_neg hb]
          exact ih (c == '\\') (result ++ [c]) ⟨s.source, s.index + 1⟩ m
            (by simp; omega) (by simp; omega)

theorem eat_number_go_fuel :
    ∀ (fuel : Nat) (period_passed : Bool) (result : List Char) (s : Lexer) (fuel' : Nat),
      s.source.length - s.index ≤ fuel → s.source.length - s.index ≤ fuel' →
      eat_number_literal_go period_passed result s fuel =
        eat_number_literal_go period_passed result s fuel' := by
  intro fuel
  induction fuel with
  | zero =>
    intro period_passed result s fuel' h h'
    cases fuel' with
    | zero => rfl
    | succ n =>
      have hp : s.peek = .error .EndOfFileReached := peek_none (by omega)
      simp [eat_number_literal_go, hp]
  | succ n ih =>
    intro period_passed result s fuel' h h'
    cases fuel' with
    | zero =>
      have hp : s.peek = .error .EndOfFileReached := peek_none (by omega)
      simp [eat_number_literal_go, hp]
    | succ m =>
      simp only [eat_number_literal_go]
      cases hp : s.peek with
      | error e => rfl
      | ok c =>
        dsimp only
        have hlt := peek_ok_lt hp
        by_cases hdot : c = '.'
        · rw [if_pos hdot, if_pos hdot]
          by_cases hpp : period_passed = true
          · rw [if_pos hpp, if_pos hpp]
          · rw [if_neg hpp, if_neg hpp, eat_after_peek hp]
            dsimp only
            exact ih true (result ++ [c]) ⟨s.source, s.index + 1⟩ m
              (by simp; omega) (by simp; omega)
        · rw [if_neg hdot, if_neg hdot]
          by_cases hnum : charIsNumeric c = true
          · rw [if_pos hnum, if_pos hnum, eat_after_peek hp]
            dsimp only
            exact ih period_passed (result ++ [c]) ⟨s.source, s.index + 1⟩ m
              (by simp; omega) (by simp; omega)
          · rw [if_neg hnum, if_neg hnum]

end Lexer

end Cfmt
